import Mathlib

/-!
Shallow embedding of the import pipeline of the book-tts-vni repository
(file `src/fileParser.ts`, given as `src/unnamed/part_001`): the chapter
boundary detector / splitter (`splitIntoChapters`, both the original
two-pattern version and the optimized combined-pattern version), the PDF
glyph-run reconstructor (`parsePdf`), the EPUB chapter assembly loop of
`parseEpub`, the whitespace-cleanup tail of `htmlToText`, and the
`parseFile` orchestration for the flat (PDF/TXT) path.

Modelling conventions:
* JS strings are `List Char`; positions are `Nat` indices.
* JS numbers used for PDF layout geometry are `ℚ`.
* Asynchronous, fallible decoding is `Except`; a rejected promise inside
  `Promise.all` is the short-circuiting `Except.error` of `List.mapM`,
  which matches `Promise.all` rejection together with the `await` that
  rethrows the first rejection.
* The caller-owned `AbortSignal` is a constant `Bool`: once the signal is
  raised it stays raised, so every cooperative check reads the same value.
* Progress callbacks are modelled as an event log (detail strings elided).
-/

namespace BookTTS

/-! ## Character classes and basic string operations -/

/-- JS whitespace class `\s`, which is also the character set removed by
`String.prototype.trim`. -/
def isJsWS (c : Char) : Bool :=
  c == ' ' || c == '\t' || c == '\n' || c == '\r' ||
  c.toNat == 11 || c.toNat == 12 ||
  c.toNat == 0xa0 || c.toNat == 0x1680 ||
  (0x2000 ≤ c.toNat && c.toNat ≤ 0x200a) ||
  c.toNat == 0x2028 || c.toNat == 0x2029 || c.toNat == 0x202f ||
  c.toNat == 0x205f || c.toNat == 0x3000 || c.toNat == 0xfeff

/-- Character class `[ \t]` used throughout the chapter regexes. -/
def isSpaceTab (c : Char) : Bool := c == ' ' || c == '\t'

/-- Characters stripped by `replace(/^[\n\r]+/, "")`. -/
def isNlCr (c : Char) : Bool := c == '\n' || c == '\r'

/-- Character class `[:\-\.]` (the optional separator before the number). -/
def isSepDot (c : Char) : Bool := c == ':' || c == '-' || c == '.'

/-- Character class `[:\-\.\s]` (the separator before the subtitle). -/
def isSepBroad (c : Char) : Bool := isSepDot c || isJsWS c

/-- JS `\d`, exactly the ASCII digits. -/
def isAsciiDigit (c : Char) : Bool := '0' ≤ c && c ≤ '9'

/-- Lower-casing as used by the case-insensitive (`/i`) regex comparisons:
ASCII letters plus the Vietnamese uppercase letters occurring in the
pattern vocabulary.  (Code points outside this set never compare equal to
a pattern character, so identity is adequate for them.) -/
def charLower (c : Char) : Char :=
  if 'A' ≤ c ∧ c ≤ 'Z' then Char.ofNat (c.toNat + 32)
  else match c with
  | 'Ư' => 'ư' | 'Ơ' => 'ơ' | 'Ồ' => 'ồ' | 'Ầ' => 'ầ' | 'Ế' => 'ế'
  | 'Ể' => 'ể' | 'Ụ' => 'ụ' | 'Ệ' => 'ệ' | 'Ề' => 'ề' | 'Ớ' => 'ớ'
  | 'Đ' => 'đ' | 'Ô' => 'ô' | 'À' => 'à' | 'Ì' => 'ì' | 'Í' => 'í'
  | _ => c

/-- JS `[IVXLCDM]` under the `/i` flag. -/
def isRomanCI (c : Char) : Bool :=
  ['i', 'v', 'x', 'l', 'c', 'd', 'm'].contains (charLower c)

/-- JS `String.prototype.trim`. -/
def jsTrim (l : List Char) : List Char :=
  ((l.dropWhile isJsWS).reverse.dropWhile isJsWS).reverse

/-- Slice `text[s, e)` for `s ≤ e` (clamped at the ends, like JS). -/
def sliceStr (s e : ℕ) (text : List Char) : List Char := (text.take e).drop s

/-- JS `String.prototype.substring`, which swaps its arguments when
`s > e`. -/
def jsSubstring (s e : ℕ) (text : List Char) : List Char :=
  if s ≤ e then sliceStr s e text else sliceStr e s text

/-- Length of the run of characters satisfying `p` starting at index `q`. -/
def countWhileFrom (p : Char → Bool) (text : List Char) (q : ℕ) : ℕ :=
  ((text.drop q).takeWhile p).length

/-- Index of the first newline of a string, if any. -/
def firstNLIdx : List Char → Option ℕ
  | [] => none
  | c :: rest => if c = '\n' then some 0 else (firstNLIdx rest).map (· + 1)

/-- JS `text.indexOf("\n", q)`: the least index `j ≥ q` holding a newline. -/
def firstNLFrom (text : List Char) (q : ℕ) : Option ℕ :=
  (firstNLIdx (text.drop q)).map (q + ·)

/-! ## The chapter boundary regexes

The optimized splitter uses the single pattern

`/(?:^|\n)[ \t]*(?:Chương|Chapter|Hồi|Quyển|Book|Phần|Tiết|Mục|Part)[ \t]*[:\-\.]?[ \t]*(\d+|[IVXLCDM]+)(?:[ \t]*[:\-\.\s][ \t]*([^\n]{0,100}))?/gi`

while the original splitter runs the same skeleton twice, once with the
keyword alternation `Chương|Chapter|Hồi|Quyển|Book` and once with
`Phần|Tiết|Mục|Part`.  The matcher below implements the backtracking
semantics of this pattern shape; the only backtracking the pattern can
actually perform is (a) the `^`/`\n` alternative at the front and (b) the
greedy `[ \t]*` before the subtitle separator giving back one blank so
that the blank itself serves as the `[:\-\.\s]` separator. -/

def kwList1 : List (List Char) :=
  ["Chương".toList, "Chapter".toList, "Hồi".toList, "Quyển".toList, "Book".toList]

def kwList2 : List (List Char) :=
  ["Phần".toList, "Tiết".toList, "Mục".toList, "Part".toList]

/-- Keyword alternation of the optimized combined pattern, in source order. -/
def kwAll : List (List Char) := kwList1 ++ kwList2

/-- Keyword alternation of `/^(Chương|Chapter|Hồi|Phần|Quyển|Tiết|Mục|Book|Part)/i`
used to extract the keyword for the title. -/
def kwExtract : List (List Char) :=
  ["Chương".toList, "Chapter".toList, "Hồi".toList, "Phần".toList,
   "Quyển".toList, "Tiết".toList, "Mục".toList, "Book".toList, "Part".toList]

/-- Phrase alternation of the false-positive filter
`/^[ \t]*(?:Chương trình|Chương mục|Phần lớn|Phần đông|Phần nào|Phần nhiều|Tiết khí|Tiết kiệm)/i`. -/
def fpPhrases : List (List Char) :=
  ["Chương trình".toList, "Chương mục".toList, "Phần lớn".toList,
   "Phần đông".toList, "Phần nào".toList, "Phần nhiều".toList,
   "Tiết khí".toList, "Tiết kiệm".toList]

/-- Case-insensitive match of the pattern string `kw` against
`text[q, q+kw.length)`. -/
def ciMatchesAt : List Char → List Char → ℕ → Bool
  | [], _, _ => true
  | k :: ks, text, q =>
    match text.get? q with
    | some c => charLower c == charLower k && ciMatchesAt ks text (q + 1)
    | none => false

/-- First keyword of the alternation (in source order) matching at `q`. -/
def matchKeyword (kws : List (List Char)) (text : List Char) (q : ℕ) :
    Option (List Char) :=
  kws.find? (fun kw => ciMatchesAt kw text q)

/-- Raw regex match: `idx` is `match.index`, `stop` the end of `match[0]`,
`num` the first capture (the numeral), `sub` the second capture (the
subtitle), `none` when the optional subtitle group did not participate. -/
structure RawMatch where
  idx : ℕ
  stop : ℕ
  num : List Char
  sub : Option (List Char)
deriving DecidableEq, Repr

/-- Tail of the pattern after the numeral: the optional group
`(?:[ \t]*[:\-\.\s][ \t]*([^\n]{0,100}))?`.  The greedy leading `[ \t]*`
takes the whole blank run `a`; if the next character is a separator it is
consumed, otherwise the engine backtracks one blank (possible only when
`a ≠ 0`) and that blank is the separator; with no blank and no separator
the optional group is skipped. -/
def finishMatch (text : List Char) (p q6 : ℕ) (num : List Char) : RawMatch :=
  let a := countWhileFrom isSpaceTab text q6
  if (text.get? (q6 + a)).any isSepBroad then
    let q7 := q6 + a + 1 + countWhileFrom isSpaceTab text (q6 + a + 1)
    let m := min 100 (countWhileFrom (fun c => !(c == '\n')) text q7)
    ⟨p, q7 + m, num, some (sliceStr q7 (q7 + m) text)⟩
  else if a ≠ 0 then
    let q7 := q6 + a
    let m := min 100 (countWhileFrom (fun c => !(c == '\n')) text q7)
    ⟨p, q7 + m, num, some (sliceStr q7 (q7 + m) text)⟩
  else ⟨p, q6, num, none⟩

/-- The optional separator `[:\-\.]?`: consumed exactly when the next
character is one of `:`, `-`, `.` (taking it can never block the numeral,
whose characters are disjoint from the separator set). -/
def sepDotSkip (text : List Char) (q3 : ℕ) : ℕ :=
  if (text.get? q3).any isSepDot then q3 + 1 else q3

/-- Position after `[ \t]*[:\-\.]?[ \t]*` starting at the end `q2` of the
keyword. -/
def afterKeyword (text : List Char) (q2 : ℕ) : ℕ :=
  let q3 := q2 + countWhileFrom isSpaceTab text q2
  let q4 := sepDotSkip text q3
  q4 + countWhileFrom isSpaceTab text q4

/-- The numeral alternation `(\d+|[IVXLCDM]+)` at position `q5` followed
by the optional subtitle group: greedy digits first, then greedy Roman
letters, else the whole pattern fails. -/
def numeralMatch (text : List Char) (p q5 : ℕ) : Option RawMatch :=
  let dn := countWhileFrom isAsciiDigit text q5
  if dn ≠ 0 then
    some (finishMatch text p (q5 + dn) (sliceStr q5 (q5 + dn) text))
  else
    let rn := countWhileFrom isRomanCI text q5
    if rn ≠ 0 then
      some (finishMatch text p (q5 + rn) (sliceStr q5 (q5 + rn) text))
    else none

/-- Body of the pattern after `(?:^|\n)`: blanks, keyword alternation,
blanks, optional `[:\-\.]`, blanks, then the numeral and the optional
subtitle group.  `p` is `match.index`; `q0` is the position right after
the `(?:^|\n)` alternative. -/
def coreMatch (kws : List (List Char)) (text : List Char) (p q0 : ℕ) :
    Option RawMatch :=
  let q1 := q0 + countWhileFrom isSpaceTab text q0
  match matchKeyword kws text q1 with
  | none => none
  | some kw => numeralMatch text p (afterKeyword text (q1 + kw.length))

/-- Attempt a match whose `match.index` is `p`: the `^` alternative
(anchored at 0, since the pattern has no `m` flag) and then the `\n`
alternative, which consumes the newline at `p`. -/
def attemptAt (kws : List (List Char)) (text : List Char) (p : ℕ) :
    Option RawMatch :=
  match (if p = 0 then coreMatch kws text 0 0 else none) with
  | some r => some r
  | none =>
    match text.get? p with
    | some c => if c = '\n' then coreMatch kws text p (p + 1) else none
    | none => none

/-- One `regex.exec` scan: try successive start positions; after a match,
resume at its end (`lastIndex`).  All matches are nonempty so the JS
zero-length-match pitfall cannot arise; `fuel` only certifies
termination and is always sufficient at `text.length + 1`. -/
def scanFrom (kws : List (List Char)) (text : List Char) :
    ℕ → ℕ → List RawMatch
  | 0, _ => []
  | fuel + 1, p =>
    if p > text.length then []
    else
      match attemptAt kws text p with
      | some r => r :: scanFrom kws text fuel (max r.stop (p + 1))
      | none => scanFrom kws text fuel (p + 1)

/-- All raw matches of the pattern over `text`, in scan order. -/
def scanRaw (kws : List (List Char)) (text : List Char) : List RawMatch :=
  scanFrom kws text (text.length + 1) 0

/-! ## Building chapter candidates from raw matches -/

/-- Interface record of the source: `index` is where the chapter content
starts, `matchStart` where the heading match starts (after a leading
newline), `title` the normalized chapter title. -/
structure ChapterMatch where
  index : ℕ
  matchStart : ℕ
  title : List Char
deriving DecidableEq, Repr

/-- Test of the false-positive pattern against the trimmed match. -/
def fpTest (tm : List Char) : Bool :=
  let j := countWhileFrom isSpaceTab tm 0
  fpPhrases.any (fun ph => ciMatchesAt ph tm j)

/-- Keyword extraction
`trimmedMatch.match(/^(Chương|Chapter|Hồi|Phần|Quyển|Tiết|Mục|Book|Part)/i)`:
the capture is the actual prefix of the trimmed match (original casing). -/
def extractKeyword (tm : List Char) : List Char :=
  match kwExtract.find? (fun kw => ciMatchesAt kw tm 0) with
  | some kw => tm.take kw.length
  | none => []

/-- Last-character test `/[,\.!?;]$/` on the subtitle. -/
def endsSentencePunct (sub : List Char) : Bool :=
  match sub.getLast? with
  | some c => c == ',' || c == '.' || c == '!' || c == '?' || c == ';'
  | none => false

/-- Per-match body of the splitter loop: false-positive filtering, title
assembly, and computation of `matchStart`/`contentStart`.  Returns `none`
when the loop `continue`s. -/
def buildCandidate (text : List Char) (r : RawMatch) : Option ChapterMatch :=
  let full := sliceStr r.idx r.stop text
  let afterNL := full.dropWhile isNlCr
  let tm := jsTrim afterNL
  if fpTest tm then none
  else if tm.length = 0 then none
  else
    let sub := jsTrim (r.sub.getD [])
    let kw := extractKeyword tm
    let title :=
      if sub ≠ [] ∧ ¬ endsSentencePunct sub ∧ sub.length ≤ 80 then
        kw ++ (' ' :: r.num) ++ (':' :: ' ' :: sub)
      else kw ++ (' ' :: r.num)
    let lnl := full.length - afterNL.length
    let ms := r.idx + lnl
    let cs :=
      match firstNLFrom text ms with
      | some q => q + 1
      | none => r.idx + full.length
    some ⟨cs, ms, jsTrim title⟩

/-- Accepted chapter candidates of one pattern, in scan order. -/
def mkMatches (kws : List (List Char)) (text : List Char) : List ChapterMatch :=
  (scanRaw kws text).filterMap (buildCandidate text)

/-! ## Deduplication, sorting and chapter assembly -/

/-- One step of `new Map(allMatches.map(m => [m.matchStart, m]))`: an
existing key keeps its position but takes the new value; a new key is
appended. -/
def mapReplaceOrAppend (acc : List ChapterMatch) (m : ChapterMatch) :
    List ChapterMatch :=
  if acc.any (fun x => x.matchStart == m.matchStart) then
    acc.map (fun x => if x.matchStart == m.matchStart then m else x)
  else acc ++ [m]

/-- JS `Map`-based deduplication by `matchStart`. -/
def dedupByMatchStart (l : List ChapterMatch) : List ChapterMatch :=
  l.foldl mapReplaceOrAppend []

/-- Stable insertion for the ascending sort by `matchStart`. -/
def insertByStart (m : ChapterMatch) : List ChapterMatch → List ChapterMatch
  | [] => [m]
  | x :: xs =>
    if x.matchStart ≤ m.matchStart then x :: insertByStart m xs
    else m :: x :: xs

/-- JS `.sort((a, b) => a.matchStart - b.matchStart)` (stable, ascending). -/
def sortByStart (l : List ChapterMatch) : List ChapterMatch :=
  l.foldr insertByStart []

/-- Chapter produced by the splitter. -/
structure Chapter where
  title : List Char
  content : List Char
deriving DecidableEq, Repr

/-- Fallback title `'Nội dung'` of the zero-candidate path. -/
def titleFallback : List Char := "Nội dung".toList

/-- Prologue title `'Mở đầu'`. -/
def titlePrologue : List Char := "Mở đầu".toList

/-- Chapter content loop: each candidate's content runs from its `index`
to the next candidate's `matchStart` (the last one to end of text), and
is trimmed. -/
def chapterLoop (text : List Char) : List ChapterMatch → List Chapter
  | [] => []
  | [m] => [⟨m.title, jsTrim (jsSubstring m.index text.length text)⟩]
  | m :: m2 :: rest =>
    ⟨m.title, jsTrim (jsSubstring m.index m2.matchStart text)⟩ ::
      chapterLoop text (m2 :: rest)

/-- Chapter assembly from the accepted candidates: zero candidates give
the single `'Nội dung'` chapter wrapping the untouched text; otherwise
candidates are deduplicated and sorted, a `'Mở đầu'` prologue is emitted
when the text before the first `matchStart` trims to something nonempty,
and the content loop follows. -/
def buildChapters (text : List Char) (ms : List ChapterMatch) : List Chapter :=
  if ms.isEmpty then [⟨titleFallback, text⟩]
  else
    let u := sortByStart (dedupByMatchStart ms)
    let pre :=
      match u with
      | [] => []
      | m0 :: _ =>
        if 0 < m0.matchStart ∧ jsTrim (jsSubstring 0 m0.matchStart text) ≠ [] then
          [⟨titlePrologue, jsTrim (jsSubstring 0 m0.matchStart text)⟩]
        else []
    pre ++ chapterLoop text u

/-- Optimized splitter (single combined pattern, one linear scan);
`splitIntoChapters` of the current source. -/
def splitIntoChapters (text : List Char) : List Chapter :=
  buildChapters text (mkMatches kwAll text)

/-- Original splitter (two separate patterns whose matches are merged);
`splitIntoChapters` of the earlier revision kept alongside. -/
def splitIntoChaptersV1 (text : List Char) : List Chapter :=
  buildChapters text (mkMatches kwList1 text ++ mkMatches kwList2 text)

/-! ## PDF glyph-run reconstruction (`parsePdf`)

A text fragment carries `transform[4]` (`x`), `transform[5]` (baseline
`y`), `transform[3]` (font height) and `width`; `item.width || 0` is
absorbed into the `w` field. -/

structure PdfItem where
  str : List Char
  x : ℚ
  y : ℚ
  fh : ℚ
  w : ℚ
deriving DecidableEq, Repr

/-- The page sort comparator
`(a, b) => |a.y - b.y| > 4 ? b.y - a.y : a.x - b.x`. -/
def itemCmp (a b : PdfItem) : ℚ :=
  if |a.y - b.y| > 4 then b.y - a.y else a.x - b.x

/-- Stable insertion of `x` into an already comparator-sorted list. -/
def insertItem (x : PdfItem) : List PdfItem → List PdfItem
  | [] => [x]
  | e :: es => if itemCmp e x > 0 then x :: e :: es else e :: insertItem x es

/-- Stable sort by the page comparator.  (For the inconsistent comparator
the engine order is implementation-defined; a stable insertion sort is
fixed here.) -/
def sortItems (l : List PdfItem) : List PdfItem :=
  l.foldl (fun acc x => insertItem x acc) []

/-- Walk of the sorted fragments with the running `lastY`/`lastX`/
`lastWidth` state (initial `lastY = -1` is the first-item sentinel):
vertical gap above `1.4×` font height emits a paragraph break, above
`0.4×` a line break; on the same line a space is inserted exactly when
the horizontal gap from the previous fragment's end exceeds `0.3×` the
current font height. -/
def pageTextWalk : List PdfItem → ℚ → ℚ → ℚ → List Char
  | [], _, _, _ => []
  | it :: rest, lastY, lastX, _lastW =>
    let sep : List Char :=
      if lastY = -1 then []
      else
        let yDiff := |it.y - lastY|
        if yDiff > it.fh * (7 / 5) then ['\n', '\n']
        else if yDiff > it.fh * (2 / 5) then ['\n']
        else if it.x - lastX > it.fh * (3 / 10) then [' ']
        else []
    sep ++ it.str ++ pageTextWalk rest it.y (it.x + it.w) it.w

/-- Reconstructed text of one page before artifact removal. -/
def buildPageText (items : List PdfItem) : List Char :=
  pageTextWalk items (-1) (-1) 0

/-- Full page extraction: sort, walk, then strip the `·` (U+00B7)
font-subsetting artifact (`replace(/·/g, "")`). -/
def processPage (pg : List PdfItem) : List Char :=
  (buildPageText (sortItems pg)).filter (fun c => !(c == '·'))

/-- Error outcomes of the flat pipeline. -/
inductive PErr where
  | aborted
  | docOpen
  | pageDecode
deriving DecidableEq, Repr

/-- Progress events (labels only; percentages and detail strings elided). -/
inductive ProgressEvent where
  | pdfStart
  | pdfBatch
  | txtStart
  | analyzeStart
  | splitFound
  | splitDone
  | finished
deriving DecidableEq, Repr

/-- One page decode: `pdf.getPage(n)` followed by `getTextContent` either
yields the page's fragments or rejects; a rejected page promise is an
`Except.error`. -/
def decodePage : Option (List PdfItem) → Except PErr (List Char)
  | none => .error .pageDecode
  | some pg => .ok (processPage pg)

/-- Split a list into consecutive chunks of size `k` (last may be short). -/
def chunksOf (k : ℕ) : List α → List (List α)
  | [] => []
  | x :: xs => (x :: xs.take (k - 1)) :: chunksOf k (xs.drop (k - 1))
termination_by l => l.length
decreasing_by simp; omega

/-- Batched page loop of `parsePdf`: each iteration checks the signal,
reports progress, then awaits `Promise.all` of the batch (whose results
come back in page order; its first rejection is rethrown). -/
def pdfLoop (ab : Bool) :
    List (List (Option (List PdfItem))) →
    Except PErr (List (List Char)) × List ProgressEvent
  | [] => (.ok [], [])
  | chunk :: rest =>
    if ab then (.error .aborted, [])
    else
      match chunk.mapM decodePage with
      | .error e => (.error e, [.pdfBatch])
      | .ok ts =>
        let (r, lg) := pdfLoop ab rest
        (r.map (fun rs => ts ++ rs), .pdfBatch :: lg)

/-- PDF extraction: `getDocument` either opens the document (a list of
pages, each decodable or not) or fails; pages are processed in batches
of 50 and the per-page texts joined with a paragraph break. -/
def parsePdf (ab : Bool) (doc : Option (List (Option (List PdfItem)))) :
    Except PErr (List Char) × List ProgressEvent :=
  match doc with
  | none => (.error .docOpen, [])
  | some pages =>
    let (r, lg) := pdfLoop ab (chunksOf 50 pages)
    (r.map (fun ts => List.intercalate ['\n', '\n'] ts), lg)

/-! ## Flat pipeline orchestration (`parseFile`, PDF/TXT branches)

With a constant signal, the per-iteration checks of the splitter's two
loops reduce to: the match loop raises on its first successful raw regex
match (the check precedes false-positive filtering), and the chapter
loop is only reached afterwards.  The progress call at 50% precedes the
zero-candidate fallback return; the 100% call follows the chapter loop. -/

/-- Chapter splitting with the cooperative cancellation checks and the
progress log of the optimized splitter. -/
def splitIntoChaptersE (ab : Bool) (text : List Char) :
    Except PErr (List Chapter) × List ProgressEvent :=
  if ab ∧ scanRaw kwAll text ≠ [] then (.error .aborted, [])
  else
    (.ok (splitIntoChapters text),
     .splitFound :: (if (mkMatches kwAll text).isEmpty then [] else [.splitDone]))

/-- Terminal output `{ title, chapters }`. -/
structure ImportResult where
  title : List Char
  chapters : List Chapter
deriving DecidableEq, Repr

/-- Title derivation `file.name.replace(/\.[^/.]+$/, "")`. -/
def stripExt (name : List Char) : List Char :=
  let rev := name.reverse
  let ext := rev.takeWhile (fun c => !(c == '.') && !(c == '/'))
  if ext ≠ [] ∧ rev.get? ext.length = some '.' then
    name.take (name.length - ext.length - 1)
  else name

/-- Flat-path input: a PDF document (possibly failing to open, otherwise
a list of possibly-failing pages) or a plain-text file's content. -/
inductive FlatContent where
  | pdf (doc : Option (List (Option (List PdfItem))))
  | txt (content : List Char)
deriving DecidableEq

/-- The PDF/TXT branches of `parseFile`: initial progress report, text
extraction, the mid-pipeline signal check, chapter analysis, final
progress report. -/
def parseFileFlat (ab : Bool) (name : List Char) (inp : FlatContent) :
    Except PErr ImportResult × List ProgressEvent :=
  match inp with
  | .pdf doc =>
    let (tr, lg) := parsePdf ab doc
    match tr with
    | .error e => (.error e, .pdfStart :: lg)
    | .ok text =>
      if ab then (.error .aborted, .pdfStart :: lg)
      else
        let (cr, lg2) := splitIntoChaptersE ab text
        match cr with
        | .error e => (.error e, .pdfStart :: lg ++ .analyzeStart :: lg2)
        | .ok chs =>
          (.ok ⟨stripExt name, chs⟩,
           .pdfStart :: lg ++ .analyzeStart :: lg2 ++ [.finished])
  | .txt text =>
    if ab then (.error .aborted, [.txtStart])
    else
      let (cr, lg2) := splitIntoChaptersE ab text
      match cr with
      | .error e => (.error e, .txtStart :: .analyzeStart :: lg2)
      | .ok chs =>
        (.ok ⟨stripExt name, chs⟩,
         .txtStart :: .analyzeStart :: lg2 ++ [.finished])

/-! ## EPUB chapter assembly (`parseEpub`, spine batch loop)

Per-entry resolution (manifest lookup, zip read, `htmlToText`, minimum
content length, NCX/`<title>`/`<h1>` title candidates) is abstracted as
the function `resolve`: it returns `none` when the entry is dropped
(missing href, missing file, or under 10 visible characters), otherwise
the title candidate (possibly empty, which is falsy in JS) and content.
The spine is processed in batches of 10; `Promise.all` returns each
batch's results in spine order regardless of completion order. -/

structure EpubEntryResult where
  title : List Char
  content : List Char
deriving DecidableEq, Repr

inductive EpubErr where
  | aborted
  | invalidEpub
  | emptyEpub
deriving DecidableEq, Repr

/-- Decimal digits of `n`. -/
def natDigits (n : ℕ) : List Char := Nat.toDigits 10 n

/-- Synthesized title `Chương ${chapterNum}`. -/
def chuongTitle (n : ℕ) : List Char := "Chương ".toList ++ natDigits n

/-- Collection phase of one batch: non-null results are appended in batch
order, incrementing the running chapter counter, empty title candidates
falling back to the synthesized title. -/
def collectResults (counter : ℕ) :
    List (Option EpubEntryResult) → ℕ × List Chapter
  | [] => (counter, [])
  | none :: rest => collectResults counter rest
  | some r :: rest =>
    let n := counter + 1
    let (c2, chs) := collectResults n rest
    (c2, ⟨if r.title ≠ [] then r.title else chuongTitle n, r.content⟩ :: chs)

/-- Batched spine loop: per-batch signal check, concurrent resolution
joined in spine order, then collection. -/
def epubLoop (ab : Bool) (resolve : α → Option EpubEntryResult)
    (counter : ℕ) : List (List α) → Except EpubErr (List Chapter)
  | [] => .ok []
  | chunk :: rest =>
    if ab then .error .aborted
    else
      let results := chunk.map resolve
      let (c2, chs) := collectResults counter results
      match epubLoop ab resolve c2 rest with
      | .error e => .error e
      | .ok more => .ok (chs ++ more)

/-- The chapter-producing part of `parseEpub`: an empty spine and an
all-dropped spine are fatal. -/
def parseEpubChapters (ab : Bool) (spine : List α)
    (resolve : α → Option EpubEntryResult) : Except EpubErr (List Chapter) :=
  if spine.isEmpty then .error .invalidEpub
  else
    match epubLoop ab resolve 0 (chunksOf 10 spine) with
    | .error e => .error e
    | .ok chs => if chs.isEmpty then .error .emptyEpub else .ok chs

/-- Reference formulation: resolve the spine entries one by one, strictly
in spine order, with the same counter discipline. -/
def seqCollect (resolve : α → Option EpubEntryResult) (counter : ℕ) :
    List α → ℕ × List Chapter
  | [] => (counter, [])
  | i :: rest =>
    match resolve i with
    | none => seqCollect resolve counter rest
    | some r =>
      let n := counter + 1
      let (c2, chs) := seqCollect resolve n rest
      (c2, ⟨if r.title ≠ [] then r.title else chuongTitle n, r.content⟩ :: chs)

/-! ## Whitespace cleanup tail of `htmlToText` (lines 467–472)

`text = text.replace(/[ \t]+/g, " ")`, then
`text = text.replace(/\n\s*\n\s*\n/g, "\n\n")`, then
`text = text.split("\n").map(l => l.trim()).join("\n")`, then
`return text.trim()`.  The earlier tag-stripping and entity-decoding
stages feed an arbitrary intermediate string into this tail, so the
claims about the cleanup are stated for every input string. -/

/-- Replace `[ \t]+` runs by a single space (global regex replace:
non-overlapping maximal runs, left to right). -/
def collapseHoriz : List Char → List Char
  | [] => []
  | c :: rest =>
    if isSpaceTab c then ' ' :: collapseHoriz (rest.dropWhile isSpaceTab)
    else c :: collapseHoriz rest
termination_by l => l.length
decreasing_by
  · simp only [List.length_cons]
    exact Nat.lt_succ_of_le (List.dropWhile_sublist _).length_le
  · simp only [List.length_cons]
    omega

/-- Newlines in a string. -/
def nlCount (l : List Char) : ℕ := l.countP (· == '\n')

/-- Length of the prefix of `run` up to and including its last newline. -/
def lastNLLen (run : List Char) : ℕ :=
  (run.reverse.dropWhile (fun c => !(c == '\n'))).length

/-- Global replace of `/\n\s*\n\s*\n/g` by two newlines.  A match starts
at a newline and, because `\s*` only spans whitespace, lies inside the
maximal whitespace run starting there; it exists exactly when that run
holds at least three newlines, and greediness extends it to the run's
last newline.  Scanning resumes after the replacement. -/
def collapseNL : List Char → List Char
  | [] => []
  | c :: rest =>
    if c = '\n' ∧ 3 ≤ nlCount ('\n' :: rest.takeWhile isJsWS) then
      '\n' :: '\n' :: collapseNL (rest.drop (lastNLLen (rest.takeWhile isJsWS)))
    else c :: collapseNL rest
termination_by l => l.length
decreasing_by
  · simp only [List.length_cons, List.length_drop]
    omega
  · simp only [List.length_cons]
    omega

/-- JS `split("\n")`. -/
def splitOnNL : List Char → List (List Char)
  | [] => [[]]
  | c :: rest =>
    if c = '\n' then [] :: splitOnNL rest
    else
      match splitOnNL rest with
      | [] => [[c]]
      | h :: t => (c :: h) :: t

/-- JS `Array.prototype.join("\n")`: the parts separated by single
newlines (no leading or trailing separator). -/
def joinNL : List (List Char) → List Char
  | [] => []
  | [x] => x
  | x :: y :: t => x ++ '\n' :: joinNL (y :: t)

/-- `text.split("\n").map(l => l.trim()).join("\n")`. -/
def lineTrim (l : List Char) : List Char :=
  joinNL ((splitOnNL l).map jsTrim)

/-- No maximal whitespace run of the string holds three or more newlines:
the "no three or more consecutive blank separators" shape that the
`\n\s*\n\s*\n` replacement is meant to establish. -/
def noThreeNLRun (l : List Char) : Prop :=
  ∀ m, m.IsInfix l → (∀ c ∈ m, isJsWS c = true) → nlCount m ≤ 2

/-- Decidable check for a run of three consecutive newlines. -/
def hasTripleNL (l : List Char) : Bool :=
  decide ((['\n', '\n', '\n'] : List Char) <:+: l)

/-- The whole whitespace-cleanup tail. -/
def cleanupWhitespace (l : List Char) : List Char :=
  jsTrim (lineTrim (collapseNL (collapseHoriz l)))

/-! ## Statement-level notions -/

/-- A keyword is well-formed when it is nonempty and starts with a letter
(in particular not with a newline or carriage return, even after
lower-casing). -/
def kwHeadOK (kw : List Char) : Bool :=
  match kw with
  | [] => false
  | k :: _ => !(charLower k == '\n') && !(charLower k == '\r')

/-- Keyword lists which the invariant proofs may assume: every keyword is
well-formed. -/
def kwWellFormed (kws : List (List Char)) : Prop :=
  ∀ kw ∈ kws, kwHeadOK kw = true

/-- The deduplicated, ascending candidate list the chapter assembly works
from. -/
def uniqueMatches (kws : List (List Char)) (text : List Char) :
    List ChapterMatch :=
  sortByStart (dedupByMatchStart (mkMatches kws text))

/-- End bound of each candidate's content span: the next candidate's
`matchStart`, and `text.length` for the last candidate. -/
def nextBounds (text : List Char) (u : List ChapterMatch) : List ℕ :=
  (u.drop 1).map (fun m => m.matchStart) ++ [text.length]

/-- The `matchStart` value the candidate builder derives from a raw
match: `match.index` plus the length of the leading newline run of the
matched text. -/
def rawMS (text : List Char) (r : RawMatch) : ℕ :=
  r.idx + ((sliceStr r.idx r.stop text).length -
    ((sliceStr r.idx r.stop text).dropWhile isNlCr).length)

/-- Positional invariants every accepted candidate enjoys: its heading
starts at the text start or right after a newline; the content start is
at or after the heading start, within the text, and is the character
after the first newline at or past the heading start whenever one
exists. -/
def candOK (text : List Char) (m : ChapterMatch) : Prop :=
  (m.matchStart = 0 ∨ text.get? (m.matchStart - 1) = some '\n') ∧
  m.matchStart ≤ m.index ∧ m.index ≤ text.length ∧
  (∀ j, firstNLFrom text m.matchStart = some j → m.index = j + 1)

/-- Intervals of the chapter-content loop: each candidate's interval runs
from its content start to the next candidate's heading start (the last to
the end of the text). -/
def loopIvs (text : List Char) : List ChapterMatch → List (ℕ × ℕ)
  | [] => []
  | [m] => [(m.index, text.length)]
  | m :: m2 :: rest => (m.index, m2.matchStart) :: loopIvs text (m2 :: rest)

/-- The chapter list is a listing of (possibly trimmed) slices of
pairwise non-overlapping intervals of the text, in increasing positional
order.  (This is the half of the partition property that survives: the
intervals may leave gaps, because heading lines and trimmed whitespace
are dropped.) -/
def isOrderedSliceListing (text : List Char) (cs : List Chapter) : Prop :=
  ∃ ivs : List (ℕ × ℕ),
    ivs.length = cs.length ∧
    (∀ iv ∈ ivs, iv.1 ≤ iv.2 ∧ iv.2 ≤ text.length) ∧
    List.Chain' (fun p q => p.2 ≤ q.1) ivs ∧
    ∀ p ∈ cs.zip ivs,
      p.1.content = jsTrim (sliceStr p.2.1 p.2.2 text) ∨
      p.1.content = sliceStr p.2.1 p.2.2 text

/-! ## Concrete example inputs -/

/-- Text whose single heading swallows the following line as a subtitle
(the newline acts as the `[:\-\.\s]` separator). -/
def exC1 : List Char := "Chương 1\nabc".toList

/-- Keyword-free text for the zero-candidate fallback. -/
def exC2 : List Char := "hello world".toList

/-- Text whose prefix before the first heading is whitespace only. -/
def exC3 : List Char := "\nChương 1\nbody".toList

/-- Text with a nonempty prologue before the first heading. -/
def exC3wit : List Char := "intro text here\nChương 1\nbody text".toList

/-- A decodable one-fragment page. -/
def exPage : List PdfItem := [⟨"Hi".toList, 10, 700, 12, 20⟩]

/-- Text on which the combined single scan and the two-pattern scan
disagree: the `Phần` heading's subtitle capture swallows the `Chương`
heading line which the original second scan finds separately. -/
def exC8 : List Char := "Phần 1\nChương 2 title\nbody".toList

/-- Keyword-free whitespace-padded text. -/
def exC10 : List Char := " hello ".toList

/-- Heading text with a whitespace-only prefix and one ordinary heading. -/
def exC10wit : List Char := "\n  \nChương 2\nxyz".toList

/-- Per-entry resolution of a three-file spine (files A, B, C). -/
def exSpineResolve : ℕ → Option EpubEntryResult := fun i =>
  if i = 0 then some ⟨"A".toList, "contentA".toList⟩
  else if i = 1 then some ⟨"B".toList, "contentB".toList⟩
  else if i = 2 then some ⟨"C".toList, "contentC".toList⟩
  else none

/-- Fragments for the sentinel counterexample: both on one visual line at
baseline exactly `-1`, with a wide horizontal gap. -/
def exC5a : PdfItem := ⟨"ab".toList, 0, -1, 10, 2⟩

def exC5b : PdfItem := ⟨"cd".toList, 7, -1, 10, 1⟩

/-- Fragments for the space-insertion witness: same line at baseline 100,
gap of `0.1×` font height (no space) and `0.5×` font height (one space). -/
def exC5w1a : PdfItem := ⟨"ab".toList, 0, 100, 10, 2⟩

def exC5w1b : PdfItem := ⟨"cd".toList, 3, 100, 10, 1⟩

def exC5w2b : PdfItem := ⟨"cd".toList, 7, 100, 10, 1⟩

/-! # Theorems -/

/-! ## Emptiness transport through deduplication and sorting -/

theorem mapReplaceOrAppend_ne_nil (acc : List ChapterMatch) (m : ChapterMatch) :
    mapReplaceOrAppend acc m ≠ [] := by
  unfold mapReplaceOrAppend
  split
  · rename_i h
    cases acc with
    | nil => simp at h
    | cons a as => simp
  · simp

theorem foldl_mapReplaceOrAppend_ne_nil :
    ∀ (l acc : List ChapterMatch), acc ≠ [] → l.foldl mapReplaceOrAppend acc ≠ []
  | [], _acc, h => h
  | m :: rest, acc, _h =>
    foldl_mapReplaceOrAppend_ne_nil rest (mapReplaceOrAppend acc m)
      (mapReplaceOrAppend_ne_nil acc m)

theorem dedupByMatchStart_eq_nil_iff (l : List ChapterMatch) :
    dedupByMatchStart l = [] ↔ l = [] := by
  constructor
  · intro h
    cases l with
    | nil => rfl
    | cons m rest =>
      exact absurd h
        (foldl_mapReplaceOrAppend_ne_nil rest (mapReplaceOrAppend [] m)
          (mapReplaceOrAppend_ne_nil [] m))
  · intro h; subst h; rfl

theorem insertByStart_ne_nil (m : ChapterMatch) (l : List ChapterMatch) :
    insertByStart m l ≠ [] := by
  cases l with
  | nil => simp [insertByStart]
  | cons x xs =>
    unfold insertByStart
    split <;> simp

theorem sortByStart_eq_nil_iff (l : List ChapterMatch) :
    sortByStart l = [] ↔ l = [] := by
  constructor
  · intro h
    cases l with
    | nil => rfl
    | cons x xs =>
      exact absurd h (insertByStart_ne_nil x (sortByStart xs))
  · intro h; subst h; rfl

theorem uniqueMatches_eq_nil_iff (kws : List (List Char)) (text : List Char) :
    uniqueMatches kws text = [] ↔ mkMatches kws text = [] := by
  unfold uniqueMatches
  rw [sortByStart_eq_nil_iff, dedupByMatchStart_eq_nil_iff]

/-! ## C2: zero boundary candidates -/

/-- C2.  If the detector accepts zero boundary candidates, the splitter
returns exactly one chapter, whose title is the fallback title
(`'Nội dung'`, rendered "Content" by the specification) and whose content
is the full text it was given. -/
theorem C2_zero_candidates_single_content_chapter (text : List Char)
    (h : mkMatches kwAll text = []) :
    splitIntoChapters text = [⟨titleFallback, text⟩] := by
  simp [splitIntoChapters, buildChapters, h]

theorem C2_zero_candidates_witness :
    mkMatches kwAll exC2 = [] ∧ splitIntoChapters exC2 = [⟨titleFallback, exC2⟩] :=
  ⟨by decide, C2_zero_candidates_single_content_chapter exC2 (by decide)⟩

/-! ## C8: combined-pattern scan versus two-pattern scan -/

/-- C8 counterexample.  On `"Phần 1\nChương 2 title\nbody"` the original
two-pattern splitter finds both the `Phần` and the `Chương` headings (two
chapters), while the optimized combined scan consumes the `Chương` line
as the `Phần` heading's subtitle and never revisits it (one chapter), so
the two splitters do not agree on every input. -/
theorem C8_combined_scan_differs :
    splitIntoChapters exC8 ≠ splitIntoChaptersV1 exC8 ∧
    (splitIntoChapters exC8).length = 1 ∧
    (splitIntoChaptersV1 exC8).length = 2 := by
  refine ⟨by decide, by decide, by decide⟩

/-- C8 amended.  The optimized single combined scan returns the same
chapter list as the original two-pattern splitter exactly on those texts
where it recovers the same deduplicated, sorted candidate set as the two
separate scans; everything after candidate discovery is identical. -/
theorem C8_combined_eq_twoPass_of_same_candidates (text : List Char)
    (h : uniqueMatches kwAll text =
      sortByStart (dedupByMatchStart (mkMatches kwList1 text ++ mkMatches kwList2 text))) :
    splitIntoChapters text = splitIntoChaptersV1 text := by
  unfold splitIntoChapters splitIntoChaptersV1
  unfold uniqueMatches at h
  by_cases h1 : mkMatches kwAll text = []
  · have h2 : mkMatches kwList1 text ++ mkMatches kwList2 text = [] := by
      rw [← dedupByMatchStart_eq_nil_iff, ← sortByStart_eq_nil_iff, ← h, h1]
      rfl
    rw [h1, h2]
  · have h2 : mkMatches kwList1 text ++ mkMatches kwList2 text ≠ [] := by
      intro hc
      apply h1
      rw [← dedupByMatchStart_eq_nil_iff, ← sortByStart_eq_nil_iff, h, hc]
      rfl
    unfold buildChapters
    rw [if_neg (by simpa using h1), if_neg (by simpa using h2), h]

theorem C8_combined_eq_twoPass_witness :
    uniqueMatches kwAll ("Chapter 1\nhello".toList) =
      sortByStart (dedupByMatchStart
        (mkMatches kwList1 ("Chapter 1\nhello".toList) ++
          mkMatches kwList2 ("Chapter 1\nhello".toList))) ∧
    splitIntoChapters ("Chapter 1\nhello".toList) =
      splitIntoChaptersV1 ("Chapter 1\nhello".toList) :=
  ⟨by decide, C8_combined_eq_twoPass_of_same_candidates _ (by decide)⟩

/-! ## C5: same-line space insertion -/

/-- C5 amended.  For two consecutive fragments on the same visual line
(vertical gap at most `0.4×` the current font height), provided the
first fragment's baseline is not the first-item sentinel value `-1`, the
reconstructor emits the first text, then exactly one space when the
horizontal gap exceeds `0.3×` the font height and nothing otherwise,
then the second text. -/
theorem C5_same_line_space_rule (a b : PdfItem)
    (hy : a.y ≠ -1) (hline : |b.y - a.y| ≤ b.fh * (2 / 5)) :
    buildPageText [a, b] =
      a.str ++ (if b.x - (a.x + a.w) > b.fh * (3 / 10) then [' '] else []) ++ b.str := by
  have habs : (0 : ℚ) ≤ |b.y - a.y| := abs_nonneg _
  have hfh : (0 : ℚ) ≤ b.fh := by nlinarith
  have h14 : ¬ (|b.y - a.y| > b.fh * (7 / 5)) := by
    push_neg
    nlinarith
  have h04 : ¬ (|b.y - a.y| > b.fh * (2 / 5)) := not_lt.mpr hline
  simp only [buildPageText, pageTextWalk, if_pos rfl, if_neg hy, if_neg h14, if_neg h04,
    eq_self_iff_true, ite_true, List.nil_append, List.append_nil, List.append_assoc]

theorem C5_same_line_space_rule_witness :
    buildPageText [exC5w1a, exC5w1b] = "abcd".toList ∧
    buildPageText [exC5w1a, exC5w2b] = "ab cd".toList := by
  constructor
  · rw [C5_same_line_space_rule exC5w1a exC5w1b (by norm_num [exC5w1a, exC5w1b])
      (by norm_num [exC5w1a, exC5w1b])]
    rw [if_neg (by norm_num [exC5w1a, exC5w1b])]
    decide
  · rw [C5_same_line_space_rule exC5w1a exC5w2b (by norm_num [exC5w1a, exC5w2b])
      (by norm_num [exC5w1a, exC5w2b])]
    rw [if_pos (by norm_num [exC5w1a, exC5w2b])]
    decide

/-! ## C4: per-page decode failure -/

theorem except_bind_error {ε α β : Type} (e : ε) (f : α → Except ε β) :
    (Except.error e >>= f) = Except.error e := rfl

theorem except_bind_ok {ε α β : Type} (a : α) (f : α → Except ε β) :
    (Except.ok a >>= f) = f a := rfl

theorem except_pure_eq_ok {ε α : Type} (a : α) :
    (pure a : Except ε α) = Except.ok a := rfl

theorem except_map_error {ε α β : Type} (e : ε) (f : α → β) :
    (Except.error e : Except ε α).map f = Except.error e := rfl

theorem except_map_ok {ε α β : Type} (a : α) (f : α → β) :
    (Except.ok a : Except ε α).map f = Except.ok (f a) := rfl

theorem chunksOf_flatten_aux (k : ℕ) :
    ∀ (n : ℕ) (l : List α), l.length ≤ n → (chunksOf k l).flatten = l := by
  intro n
  induction n with
  | zero =>
    intro l h
    have hl : l = [] := List.length_eq_zero.mp (Nat.le_zero.mp h)
    subst hl
    simp [chunksOf]
  | succ n ih =>
    intro l h
    cases l with
    | nil => simp [chunksOf]
    | cons x xs =>
      rw [chunksOf]
      simp only [List.flatten_cons]
      rw [ih (xs.drop (k - 1)) (by simp only [List.length_drop]; simp at h; omega)]
      rw [List.cons_append, List.take_append_drop]

theorem chunksOf_flatten (k : ℕ) (l : List α) : (chunksOf k l).flatten = l :=
  chunksOf_flatten_aux k l.length l le_rfl

theorem mapM_decodePage_of_mem_none :
    ∀ (chunk : List (Option (List PdfItem))), none ∈ chunk →
      chunk.mapM decodePage = .error .pageDecode := by
  intro chunk
  induction chunk with
  | nil => intro h; simp at h
  | cons c rest ih =>
    intro h
    rw [List.mapM_cons]
    cases c with
    | none => rfl
    | some pg =>
      have hm : none ∈ rest := by simpa using h
      rw [ih hm]
      rfl

theorem mapM_decodePage_error_eq :
    ∀ (chunk : List (Option (List PdfItem))) (e : PErr),
      chunk.mapM decodePage = .error e → e = .pageDecode := by
  intro chunk
  induction chunk with
  | nil =>
    intro e h
    rw [List.mapM_nil] at h
    exact Except.noConfusion h
  | cons c rest ih =>
    intro e h
    rw [List.mapM_cons] at h
    cases c with
    | none =>
      rw [show decodePage none = Except.error .pageDecode from rfl,
        except_bind_error] at h
      exact (Except.error.inj h).symm
    | some pg =>
      rw [show decodePage (some pg) = Except.ok (processPage pg) from rfl,
        except_bind_ok] at h
      cases hmr : rest.mapM decodePage with
      | error e2 =>
        rw [hmr, except_bind_error] at h
        have h2 := Except.error.inj h
        subst h2
        exact ih _ hmr
      | ok ts =>
        rw [hmr, except_bind_ok, except_pure_eq_ok] at h
        exact Except.noConfusion h

theorem pdfLoop_error_of_mem_none :
    ∀ (chunks : List (List (Option (List PdfItem)))),
      none ∈ chunks.flatten → (pdfLoop false chunks).1 = .error .pageDecode := by
  intro chunks
  induction chunks with
  | nil => intro h; simp at h
  | cons chunk rest ih =>
    intro h
    simp only [List.flatten_cons, List.mem_append] at h
    rcases h with hc | hr
    · rw [pdfLoop, mapM_decodePage_of_mem_none chunk hc]
      rfl
    · cases hmc : chunk.mapM decodePage with
      | error e =>
        rw [pdfLoop, hmc, mapM_decodePage_error_eq chunk e hmc]
        rfl
      | ok ts =>
        have hrec := ih hr
        rcases hE : pdfLoop false rest with ⟨r, lg⟩
        rw [hE] at hrec
        simp only at hrec
        rw [pdfLoop, hmc]
        simp only [Bool.false_eq_true, if_false, hE, hrec]
        rfl

/-- C4 amended.  A single page failing to decode is not skipped: the
rejected page promise makes the whole batch's `Promise.all` reject, and
`parsePdf` fails with the decode error, so any document containing a
failing page yields a fatal decode error (a failing `getDocument` is the
other fatal decode error). -/
theorem C4_failing_page_fatal (pages : List (Option (List PdfItem)))
    (h : none ∈ pages) :
    (parsePdf false (some pages)).1 = .error .pageDecode := by
  have hmem : none ∈ (chunksOf 50 pages).flatten := by
    rw [chunksOf_flatten]
    exact h
  have hloop := pdfLoop_error_of_mem_none (chunksOf 50 pages) hmem
  rcases hE : pdfLoop false (chunksOf 50 pages) with ⟨r, lg⟩
  rw [hE] at hloop
  simp only at hloop
  simp [parsePdf, hE, hloop, except_map_error]

theorem C4_failing_page_fatal_witness :
    (none : Option (List PdfItem)) ∈ ([none] : List (Option (List PdfItem))) ∧
    (parsePdf false (some ([none] : List (Option (List PdfItem))))).1 =
      .error .pageDecode :=
  ⟨by simp, C4_failing_page_fatal [none] (by simp)⟩

/-- C4 counterexample.  With a document of two pages whose second page
fails to decode, `parsePdf` yields a fatal decode error instead of the
claimed non-fatal skip that would produce the remaining page's text. -/
theorem C4_failing_page_not_skipped :
    (parsePdf false (some [some exPage, none])).1 = .error .pageDecode ∧
    (parsePdf false (some [some exPage, none])).1 ≠ .ok (processPage exPage) := by
  have h1 : (parsePdf false (some [some exPage, none])).1 = .error .pageDecode :=
    C4_failing_page_fatal [some exPage, none] (by simp)
  refine ⟨h1, ?_⟩
  rw [h1]
  simp

/-! ## C9: cancellation behaviour of the flat pipeline -/

/-- C9 counterexample.  With the signal already raised, a document that
fails to open dies inside `getDocument` before the first cooperative
check, so the pipeline yields the data (decode) error rather than the
cancellation outcome. -/
theorem C9_unopened_doc_yields_data_error :
    parseFileFlat true ("book.pdf".toList) (.pdf none) =
      (.error .docOpen, [.pdfStart]) ∧
    (parseFileFlat true ("book.pdf".toList) (.pdf none)).1 ≠ .error .aborted := by
  constructor
  · rfl
  · show Except.error PErr.docOpen ≠ Except.error PErr.aborted
    simp

/-- C9 amended.  Once the cancellation signal is raised, every input
whose document opens (and every plain-text input) makes the pipeline
terminate with the cancellation outcome at its first cooperative check —
never an `ImportResult` and never a data error — and the only progress
callback ever invoked is the initial status report that precedes the
first check. -/
theorem C9_abort_yields_cancellation (name : List Char) (inp : FlatContent)
    (h : inp ≠ FlatContent.pdf none) :
    (parseFileFlat true name inp).1 = .error .aborted ∧
    (parseFileFlat true name inp).2.length = 1 := by
  cases inp with
  | txt t => exact ⟨rfl, rfl⟩
  | pdf doc =>
    cases doc with
    | none => exact absurd rfl h
    | some pages =>
      cases hc : chunksOf 50 pages with
      | nil => simp [parseFileFlat, parsePdf, hc, pdfLoop, except_map_ok, except_map_error]
      | cons c cs =>
        simp [parseFileFlat, parsePdf, hc, pdfLoop, except_map_ok, except_map_error]

theorem C9_abort_yields_cancellation_witness :
    FlatContent.txt ("hi".toList) ≠ FlatContent.pdf none ∧
    (parseFileFlat true ("b.txt".toList) (.txt ("hi".toList))).1 = .error .aborted ∧
    (parseFileFlat true ("b.txt".toList) (.txt ("hi".toList))).2.length = 1 :=
  ⟨by decide,
   (C9_abort_yields_cancellation ("b.txt".toList) (.txt ("hi".toList)) (by decide)).1,
   (C9_abort_yields_cancellation ("b.txt".toList) (.txt ("hi".toList)) (by decide)).2⟩

/-- C5 counterexample.  A previous fragment whose baseline is exactly the
sentinel value `-1` makes the walk treat the next fragment as a first
item: no space is inserted although the fragments are on one visual line
and the horizontal gap is `0.5×` the font height, so the stated rule does
not hold for every same-line pair. -/
theorem C5_sentinel_counterexample :
    |exC5b.y - exC5a.y| ≤ exC5b.fh * (2 / 5) ∧
    exC5b.x - (exC5a.x + exC5a.w) > exC5b.fh * (3 / 10) ∧
    buildPageText [exC5a, exC5b] = "abcd".toList ∧
    buildPageText [exC5a, exC5b] ≠ "ab cd".toList := by
  have hbuild : buildPageText [exC5a, exC5b] = "abcd".toList := by
    simp only [buildPageText, pageTextWalk, exC5a, exC5b, eq_self_iff_true, ite_true,
      List.nil_append, List.append_nil]
    decide
  refine ⟨by norm_num [exC5a, exC5b], by norm_num [exC5a, exC5b], hbuild, ?_⟩
  rw [hbuild]
  decide

end BookTTS

namespace BookTTS

/-! ## C6: spine order of EPUB chapters -/

theorem collectResults_map {α : Type} (resolve : α → Option EpubEntryResult) :
    ∀ (l : List α) (c : ℕ), collectResults c (l.map resolve) = seqCollect resolve c l := by
  intro l
  induction l with
  | nil => intro c; rfl
  | cons i rest ih =>
    intro c
    simp only [List.map_cons]
    cases hri : resolve i with
    | none =>
      simp only [collectResults, seqCollect, hri]
      exact ih c
    | some r =>
      simp only [collectResults, seqCollect, hri]
      rw [ih (c + 1)]

theorem seqCollect_append {α : Type} (resolve : α → Option EpubEntryResult) :
    ∀ (a b : List α) (c : ℕ),
      seqCollect resolve c (a ++ b) =
        ((seqCollect resolve (seqCollect resolve c a).1 b).1,
         (seqCollect resolve c a).2 ++ (seqCollect resolve (seqCollect resolve c a).1 b).2) := by
  intro a
  induction a with
  | nil => intro b c; simp [seqCollect]
  | cons i rest ih =>
    intro b c
    simp only [List.cons_append]
    cases hri : resolve i with
    | none =>
      simp only [seqCollect, hri]
      exact ih b c
    | some r =>
      simp only [seqCollect, hri]
      rw [ih b (c + 1)]
      simp

theorem epubLoop_chunks {α : Type} (resolve : α → Option EpubEntryResult) (k : ℕ) :
    ∀ (n : ℕ) (l : List α), l.length ≤ n → ∀ (c : ℕ),
      epubLoop false resolve c (chunksOf k l) = .ok (seqCollect resolve c l).2 := by
  intro n
  induction n with
  | zero =>
    intro l h c
    have hl : l = [] := List.length_eq_zero.mp (Nat.le_zero.mp h)
    subst hl
    simp [chunksOf, epubLoop, seqCollect]
  | succ n ih =>
    intro l h c
    cases l with
    | nil => simp [chunksOf, epubLoop, seqCollect]
    | cons x xs =>
      rw [chunksOf]
      have hsplit : x :: xs = (x :: xs.take (k - 1)) ++ xs.drop (k - 1) := by
        rw [List.cons_append, List.take_append_drop]
      simp only [epubLoop, Bool.false_eq_true, if_false]
      rw [collectResults_map]
      rcases hE : seqCollect resolve c (x :: xs.take (k - 1)) with ⟨c2, chs⟩
      rw [ih (xs.drop (k - 1)) (by simp only [List.length_drop]; simp at h; omega) c2]
      conv_rhs => rw [hsplit]
      rw [seqCollect_append, hE]

/-- C6.  The chapters produced by the batched EPUB spine loop are exactly
the chapters obtained by resolving the spine entries one at a time in
spine order: batching by 10 and joining each batch's concurrently
resolved results by spine index (as `Promise.all` does) never reorders,
so chapter order always follows the spine, independent of the completion
order of the per-entry fetches. -/
theorem C6_chapters_follow_spine_order {α : Type} (spine : List α)
    (resolve : α → Option EpubEntryResult)
    (h1 : spine ≠ []) (h2 : (seqCollect resolve 0 spine).2 ≠ []) :
    parseEpubChapters false spine resolve = .ok (seqCollect resolve 0 spine).2 := by
  unfold parseEpubChapters
  rw [if_neg (by simpa using h1)]
  rw [epubLoop_chunks resolve 10 spine.length spine le_rfl 0]
  simp [h2]

theorem C6_chapters_follow_spine_order_witness :
    ([0, 1, 2] : List ℕ) ≠ [] ∧
    (seqCollect exSpineResolve 0 [0, 1, 2]).2 ≠ [] ∧
    parseEpubChapters false [0, 1, 2] exSpineResolve =
      .ok ((seqCollect exSpineResolve 0 [0, 1, 2]).2) :=
  ⟨by decide, by decide,
   C6_chapters_follow_spine_order [0, 1, 2] exSpineResolve (by decide) (by decide)⟩

end BookTTS

namespace BookTTS

/-! ## Scan invariants: basic index lemmas -/

theorem get?_eq_drop_head? (text : List Char) (q : ℕ) :
    text.get? q = (text.drop q).head? := by
  rw [List.get?_eq_getElem?, List.head?_eq_getElem?, List.getElem?_drop, Nat.add_zero]

theorem countWhileFrom_le (p : Char → Bool) (text : List Char) (q : ℕ) :
    countWhileFrom p text q ≤ text.length - q := by
  unfold countWhileFrom
  calc ((text.drop q).takeWhile p).length ≤ (text.drop q).length :=
        (List.takeWhile_sublist p).length_le
    _ = text.length - q := List.length_drop q text

theorem countWhileFrom_pos_head (p : Char → Bool) (text : List Char) (q : ℕ)
    (h : countWhileFrom p text q ≠ 0) :
    ∃ c, text.get? q = some c ∧ p c = true := by
  unfold countWhileFrom at h
  rw [get?_eq_drop_head?]
  cases hd : text.drop q with
  | nil => rw [hd] at h; simp at h
  | cons c rest =>
    rw [hd] at h
    rw [List.takeWhile_cons] at h
    by_cases hp : p c = true
    · exact ⟨c, rfl, hp⟩
    · rw [if_neg (by simp [hp])] at h
      simp at h

theorem ciMatchesAt_bound (text : List Char) :
    ∀ (kw : List Char) (q : ℕ), ciMatchesAt kw text q = true → kw ≠ [] →
      q + kw.length ≤ text.length := by
  intro kw
  induction kw with
  | nil => intro q _ hne; exact absurd rfl hne
  | cons k ks ih =>
    intro q h _
    rw [ciMatchesAt] at h
    cases hg : text.get? q with
    | none => rw [hg] at h; exact absurd h (by simp)
    | some c =>
      rw [hg] at h
      have hq : q < text.length := by
        by_contra hq
        rw [List.get?_eq_getElem?, List.getElem?_eq_none (by omega)] at hg
        exact Option.noConfusion hg
      cases ks with
      | nil => simpa using hq
      | cons k2 ks2 =>
        have h2 := (Bool.and_eq_true _ _).mp h
        have h3 := ih (q + 1) h2.2 (by simp)
        simp only [List.length_cons] at h3 ⊢
        omega

theorem ciMatchesAt_head (k : Char) (ks : List Char) (text : List Char) (q : ℕ)
    (h : ciMatchesAt (k :: ks) text q = true) :
    ∃ c, text.get? q = some c ∧ charLower c = charLower k := by
  rw [ciMatchesAt] at h
  cases hg : text.get? q with
  | none => rw [hg] at h; exact absurd h (by simp)
  | some c =>
    rw [hg] at h
    have h2 := (Bool.and_eq_true _ _).mp h
    exact ⟨c, rfl, by simpa using h2.1⟩

theorem matchKeyword_some (kws : List (List Char)) (text : List Char) (q : ℕ)
    (kw : List Char) (h : matchKeyword kws text q = some kw) :
    kw ∈ kws ∧ ciMatchesAt kw text q = true :=
  ⟨List.mem_of_find?_eq_some h, by simpa using List.find?_some h⟩

theorem sliceStr_length (s e : ℕ) (text : List Char) (h2 : e ≤ text.length) :
    (sliceStr s e text).length = e - s := by
  simp [sliceStr, List.length_drop, List.length_take]
  omega

theorem sliceStr_cons (s e : ℕ) (text : List Char) (c : Char)
    (hse : s < e) (hc : text.get? s = some c) :
    sliceStr s e text = c :: sliceStr (s + 1) e text := by
  have hs : s < text.length := by
    by_contra hq
    rw [List.get?_eq_getElem?, List.getElem?_eq_none (by omega)] at hc
    exact Option.noConfusion hc
  have hlen : s < (text.take e).length := by
    simp [List.length_take]
    omega
  unfold sliceStr
  rw [List.drop_eq_getElem_cons hlen]
  congr 1
  rw [List.getElem_eq_iff, List.getElem?_take_of_lt hse, ← List.get?_eq_getElem?]
  exact hc

theorem firstNLIdx_get? :
    ∀ (l : List Char) (k : ℕ), firstNLIdx l = some k → l.get? k = some '\n' := by
  intro l
  induction l with
  | nil => intro k h; exact Option.noConfusion h
  | cons c rest ih =>
    intro k h
    rw [firstNLIdx] at h
    by_cases hc : c = '\n'
    · rw [if_pos hc] at h
      cases h
      rw [show (c :: rest).get? 0 = some c from rfl, hc]
    · rw [if_neg hc] at h
      cases hk : firstNLIdx rest with
      | none => rw [hk] at h; exact Option.noConfusion h
      | some k2 =>
        rw [hk] at h
        simp only [Option.map_some'] at h
        cases h
        exact ih k2 hk

theorem firstNLIdx_min :
    ∀ (l : List Char) (j : ℕ), l.get? j = some '\n' →
      ∃ k, k ≤ j ∧ firstNLIdx l = some k := by
  intro l
  induction l with
  | nil => intro j h; simp at h
  | cons c rest ih =>
    intro j h
    rw [firstNLIdx]
    by_cases hc : c = '\n'
    · exact ⟨0, Nat.zero_le j, by rw [if_pos hc]⟩
    · cases j with
      | zero =>
        rw [show (c :: rest).get? 0 = some c from rfl] at h
        exact absurd (Option.some.inj h) hc
      | succ j2 =>
        obtain ⟨k2, hk2, hfk⟩ := ih j2 h
        exact ⟨k2 + 1, by omega, by rw [if_neg hc, hfk]; rfl⟩

theorem firstNLIdx_none :
    ∀ (l : List Char) (j : ℕ), firstNLIdx l = none → l.get? j ≠ some '\n' := by
  intro l j h hg
  obtain ⟨k, _, hfk⟩ := firstNLIdx_min l j hg
  rw [h] at hfk
  exact Option.noConfusion hfk

theorem firstNLFrom_some (text : List Char) (q j : ℕ)
    (h : firstNLFrom text q = some j) :
    q ≤ j ∧ text.get? j = some '\n' := by
  unfold firstNLFrom at h
  cases hk : firstNLIdx (text.drop q) with
  | none => rw [hk] at h; exact Option.noConfusion h
  | some k =>
    rw [hk] at h
    simp only [Option.map_some'] at h
    cases h
    refine ⟨by omega, ?_⟩
    have := firstNLIdx_get? (text.drop q) k hk
    rw [List.get?_eq_getElem?, List.getElem?_drop] at this
    rw [List.get?_eq_getElem?]
    exact this

theorem firstNLFrom_min (text : List Char) (q i : ℕ)
    (hi : text.get? i = some '\n') (hq : q ≤ i) :
    ∃ j, j ≤ i ∧ firstNLFrom text q = some j := by
  have hdrop : (text.drop q).get? (i - q) = some '\n' := by
    rw [List.get?_eq_getElem?, List.getElem?_drop]
    rw [List.get?_eq_getElem?] at hi
    rw [show q + (i - q) = i by omega]
    exact hi
  obtain ⟨k, hk, hfk⟩ := firstNLIdx_min (text.drop q) (i - q) hdrop
  refine ⟨q + k, by omega, ?_⟩
  unfold firstNLFrom
  rw [hfk]
  rfl

theorem dropWhile_eq_self_of_head (p : Char → Bool) (l : List Char)
    (h : ∀ c, l.head? = some c → p c = false) : l.dropWhile p = l := by
  cases l with
  | nil => rfl
  | cons c rest =>
    rw [List.dropWhile_cons, if_neg]
    simp [h c rfl]

theorem finishMatch_props (text : List Char) (p q6 : ℕ) (num : List Char)
    (h : q6 ≤ text.length) :
    (finishMatch text p q6 num).idx = p ∧
    q6 ≤ (finishMatch text p q6 num).stop ∧
    (finishMatch text p q6 num).stop ≤ text.length := by
  have ha := countWhileFrom_le isSpaceTab text q6
  simp only [finishMatch]
  split
  · rename_i hsep
    have hqa : q6 + countWhileFrom isSpaceTab text q6 < text.length := by
      rcases hg : text.get? (q6 + countWhileFrom isSpaceTab text q6) with _ | c
      · rw [hg] at hsep; simp [Option.any] at hsep
      · by_contra hq
        rw [List.get?_eq_getElem?, List.getElem?_eq_none (by omega)] at hg
        exact Option.noConfusion hg
    have hb := countWhileFrom_le isSpaceTab text
      (q6 + countWhileFrom isSpaceTab text q6 + 1)
    have hc := countWhileFrom_le (fun c => !(c == '\n')) text
      (q6 + countWhileFrom isSpaceTab text q6 + 1 +
        countWhileFrom isSpaceTab text (q6 + countWhileFrom isSpaceTab text q6 + 1))
    refine ⟨rfl, ?_, ?_⟩ <;> dsimp only <;> omega
  · split
    · rename_i hsep hane
      have hc := countWhileFrom_le (fun c => !(c == '\n')) text
        (q6 + countWhileFrom isSpaceTab text q6)
      refine ⟨rfl, ?_, ?_⟩ <;> dsimp only <;> omega
    · exact ⟨rfl, le_refl _, h⟩

end BookTTS

namespace BookTTS

theorem isSpaceTab_ne_nlcr (c : Char) (h : isSpaceTab c = true) :
    c ≠ '\n' ∧ c ≠ '\r' := by
  constructor <;> intro he <;> subst he <;> simp [isSpaceTab] at h

theorem get?_lt_length (text : List Char) (q : ℕ) (c : Char)
    (h : text.get? q = some c) : q < text.length := by
  by_contra hq
  rw [List.get?_eq_getElem?, List.getElem?_eq_none (by omega)] at h
  exact Option.noConfusion h

theorem get?_ex_of_lt (text : List Char) (q : ℕ) (h : q < text.length) :
    ∃ c, text.get? q = some c := by
  cases hg : text.get? q with
  | none =>
    rw [List.get?_eq_getElem?, List.getElem?_eq_none_iff] at hg
    omega
  | some c => exact ⟨c, rfl⟩

theorem sepDotSkip_bounds (text : List Char) (q3 : ℕ) :
    q3 ≤ sepDotSkip text q3 ∧ (q3 ≤ text.length → sepDotSkip text q3 ≤ text.length) := by
  unfold sepDotSkip
  split
  · rename_i hsd
    rcases hg : text.get? q3 with _ | c
    · rw [hg] at hsd; simp [Option.any] at hsd
    · have := get?_lt_length _ _ _ hg
      omega
  · omega

theorem afterKeyword_bounds (text : List Char) (q2 : ℕ) :
    q2 ≤ afterKeyword text q2 ∧ (q2 ≤ text.length → afterKeyword text q2 ≤ text.length) := by
  simp only [afterKeyword]
  have ha := countWhileFrom_le isSpaceTab text q2
  obtain ⟨hs1, hs2⟩ := sepDotSkip_bounds text (q2 + countWhileFrom isSpaceTab text q2)
  have hb := countWhileFrom_le isSpaceTab text
    (sepDotSkip text (q2 + countWhileFrom isSpaceTab text q2))
  constructor
  · omega
  · intro h
    have hs3 := hs2 (by omega)
    omega

theorem numeralMatch_props (text : List Char) (p q5 : ℕ) (r : RawMatch)
    (hq : q5 ≤ text.length) (h : numeralMatch text p q5 = some r) :
    r.idx = p ∧ q5 < r.stop ∧ r.stop ≤ text.length := by
  simp only [numeralMatch] at h
  split at h
  · rename_i hdn
    have hle := countWhileFrom_le isAsciiDigit text q5
    have hr := Option.some.inj h
    obtain ⟨hfi, hfs1, hfs2⟩ :=
      finishMatch_props text p (q5 + countWhileFrom isAsciiDigit text q5)
        (sliceStr q5 (q5 + countWhileFrom isAsciiDigit text q5) text) (by omega)
    rw [← hr]
    exact ⟨hfi, by omega, hfs2⟩
  · split at h
    · rename_i hdn hrn
      have hle := countWhileFrom_le isRomanCI text q5
      have hr := Option.some.inj h
      obtain ⟨hfi, hfs1, hfs2⟩ :=
        finishMatch_props text p (q5 + countWhileFrom isRomanCI text q5)
          (sliceStr q5 (q5 + countWhileFrom isRomanCI text q5) text) (by omega)
      rw [← hr]
      exact ⟨hfi, by omega, hfs2⟩
    · exact Option.noConfusion h

theorem coreMatch_props (kws : List (List Char)) (text : List Char)
    (p q0 : ℕ) (r : RawMatch)
    (hkw : kwWellFormed kws) (hq : q0 ≤ text.length)
    (h : coreMatch kws text p q0 = some r) :
    r.idx = p ∧ q0 < r.stop ∧ r.stop ≤ text.length ∧
    (∀ c, text.get? q0 = some c → c ≠ '\n' ∧ c ≠ '\r') := by
  simp only [coreMatch] at h
  cases hk : matchKeyword kws text (q0 + countWhileFrom isSpaceTab text q0) with
  | none => rw [hk] at h; exact Option.noConfusion h
  | some kw =>
    rw [hk] at h
    obtain ⟨hkmem, hkci⟩ := matchKeyword_some _ _ _ _ hk
    have hkOK := hkw kw hkmem
    have hkne : kw ≠ [] := by
      cases kw with
      | nil => simp [kwHeadOK] at hkOK
      | cons a b => simp
    have ha0 := countWhileFrom_le isSpaceTab text q0
    have hq2 : q0 + countWhileFrom isSpaceTab text q0 + kw.length ≤ text.length := by
      have := ciMatchesAt_bound text kw _ hkci hkne
      omega
    have hkpos : kw.length ≠ 0 := by
      cases kw with
      | nil => exact absurd rfl hkne
      | cons a b => simp
    have hchar : ∀ c, text.get? q0 = some c → c ≠ '\n' ∧ c ≠ '\r' := by
      intro c hgc
      by_cases ha : countWhileFrom isSpaceTab text q0 = 0
      · rw [ha, Nat.add_zero] at hkci
        cases kw with
        | nil => exact absurd rfl hkne
        | cons k ks =>
          obtain ⟨c2, hc2, hl⟩ := ciMatchesAt_head k ks text q0 hkci
          rw [hgc] at hc2
          cases Option.some.inj hc2
          have hk0 : charLower k ≠ '\n' ∧ charLower k ≠ '\r' := by
            simpa [kwHeadOK] using hkOK
          constructor <;> intro hcEq <;> subst hcEq
          · rw [show charLower '\n' = '\n' from rfl] at hl
            exact hk0.1 hl.symm
          · rw [show charLower '\r' = '\r' from rfl] at hl
            exact hk0.2 hl.symm
      · obtain ⟨c2, hc2, hsp⟩ := countWhileFrom_pos_head isSpaceTab text q0 ha
        rw [hgc] at hc2
        cases Option.some.inj hc2
        exact isSpaceTab_ne_nlcr c hsp
    obtain ⟨hak1, hak2⟩ := afterKeyword_bounds text
      (q0 + countWhileFrom isSpaceTab text q0 + kw.length)
    have hak3 := hak2 hq2
    obtain ⟨hni, hns1, hns2⟩ := numeralMatch_props text p _ r hak3 h
    exact ⟨hni, by omega, hns2, hchar⟩

end BookTTS

namespace BookTTS

theorem sliceStr_nil_of_le (s e : ℕ) (text : List Char) (h : e ≤ s) :
    sliceStr s e text = [] := by
  unfold sliceStr
  apply List.drop_eq_nil_of_le
  simp [List.length_take]
  omega

theorem attemptAt_props (kws : List (List Char)) (text : List Char)
    (p : ℕ) (r : RawMatch)
    (hkw : kwWellFormed kws) (h : attemptAt kws text p = some r) :
    r.idx ≤ rawMS text r ∧ rawMS text r ≤ r.stop ∧ r.stop ≤ text.length ∧
    (rawMS text r = 0 ∨ text.get? (rawMS text r - 1) = some '\n') := by
  unfold attemptAt at h
  cases hp0 : (if p = 0 then coreMatch kws text 0 0 else none) with
  | some r0 =>
    rw [hp0] at h
    have hr0 : r0 = r := Option.some.inj h
    subst hr0
    by_cases hp : p = 0
    · rw [if_pos hp] at hp0
      obtain ⟨hidx, hstop, hlen, hchar⟩ :=
        coreMatch_props kws text 0 0 r0 hkw (Nat.zero_le _) hp0
      have hfull : ((sliceStr r0.idx r0.stop text).dropWhile isNlCr) =
          sliceStr r0.idx r0.stop text := by
        apply dropWhile_eq_self_of_head
        intro c hc
        rw [hidx] at hc
        obtain ⟨c0, hc0⟩ := get?_ex_of_lt text 0 (by omega)
        rw [sliceStr_cons 0 r0.stop text c0 (by omega) hc0] at hc
        rw [List.head?_cons] at hc
        cases Option.some.inj hc
        obtain ⟨hn1, hn2⟩ := hchar c hc0
        simp [isNlCr, hn1, hn2]
      unfold rawMS
      rw [hfull, hidx]
      refine ⟨by omega, by omega, hlen, Or.inl (by omega)⟩
    · rw [if_neg hp] at hp0
      exact Option.noConfusion hp0
  | none =>
    rw [hp0] at h
    cases hgp : text.get? p with
    | none => rw [hgp] at h; exact Option.noConfusion h
    | some c =>
      rw [hgp] at h
      dsimp only at h
      by_cases hcnl : c = '\n'
      · rw [if_pos hcnl] at h
        subst hcnl
        have hplen := get?_lt_length text p _ hgp
        obtain ⟨hidx, hstop, hlen, hchar⟩ :=
          coreMatch_props kws text p (p + 1) r hkw (by omega) h
        have hslice := sliceStr_cons p r.stop text '\n' (by omega) (hidx ▸ hgp)
        have htail : ((sliceStr (p + 1) r.stop text).dropWhile isNlCr) =
            sliceStr (p + 1) r.stop text := by
          apply dropWhile_eq_self_of_head
          intro c2 hc2
          by_cases hlt : p + 1 < r.stop
          · obtain ⟨c3, hc3⟩ := get?_ex_of_lt text (p + 1) (by omega)
            rw [sliceStr_cons (p + 1) r.stop text c3 hlt hc3] at hc2
            rw [List.head?_cons] at hc2
            cases Option.some.inj hc2
            obtain ⟨hn1, hn2⟩ := hchar c2 hc3
            simp [isNlCr, hn1, hn2]
          · rw [sliceStr_nil_of_le (p + 1) r.stop text (by omega)] at hc2
            exact Option.noConfusion hc2
        have hl1 : (sliceStr p r.stop text).length = r.stop - p :=
          sliceStr_length p r.stop text hlen
        have hl2 : (sliceStr (p + 1) r.stop text).length = r.stop - (p + 1) :=
          sliceStr_length (p + 1) r.stop text hlen
        have hdrop : ((sliceStr r.idx r.stop text).dropWhile isNlCr) =
            sliceStr (p + 1) r.stop text := by
          rw [hidx, hslice, List.dropWhile_cons, if_pos (by simp [isNlCr])]
          exact htail
        unfold rawMS
        rw [hdrop, hidx, hl1, hl2]
        have hms : p + (r.stop - p - (r.stop - (p + 1))) = p + 1 := by omega
        rw [hms]
        refine ⟨by omega, by omega, hlen, Or.inr ?_⟩
        simpa using hgp
      · rw [if_neg hcnl] at h
        exact Option.noConfusion h

end BookTTS

namespace BookTTS

theorem buildCandidate_some (text : List Char) (r : RawMatch) (m : ChapterMatch)
    (h : buildCandidate text r = some m) :
    m.matchStart = rawMS text r ∧
    (m.index = match firstNLFrom text (rawMS text r) with
      | some q => q + 1
      | none => r.idx + (sliceStr r.idx r.stop text).length) ∧
    ∃ t, m.title = jsTrim t := by
  simp only [buildCandidate] at h
  split at h
  · exact Option.noConfusion h
  · split at h
    · exact Option.noConfusion h
    · have hm := Option.some.inj h
      rw [← hm]
      exact ⟨rfl, rfl, ⟨_, rfl⟩⟩

theorem mem_scanFrom (kws : List (List Char)) (text : List Char) :
    ∀ (fuel p : ℕ) (r : RawMatch), r ∈ scanFrom kws text fuel p →
      ∃ q, attemptAt kws text q = some r := by
  intro fuel
  induction fuel with
  | zero => intro p r h; simp [scanFrom] at h
  | succ fuel ih =>
    intro p r h
    rw [scanFrom] at h
    by_cases hp : p > text.length
    · rw [if_pos hp] at h; simp at h
    · rw [if_neg hp] at h
      cases ha : attemptAt kws text p with
      | some r0 =>
        rw [ha] at h
        rcases List.mem_cons.mp h with h1 | h2
        · subst h1; exact ⟨p, ha⟩
        · exact ih _ r h2
      | none =>
        rw [ha] at h
        exact ih _ r h

theorem mem_mkMatches (kws : List (List Char)) (text : List Char)
    (m : ChapterMatch) (h : m ∈ mkMatches kws text) :
    ∃ r, (∃ q, attemptAt kws text q = some r) ∧ buildCandidate text r = some m := by
  unfold mkMatches at h
  obtain ⟨r, hr, hb⟩ := List.mem_filterMap.mp h
  exact ⟨r, mem_scanFrom kws text _ 0 r hr, hb⟩

theorem candOK_of_mem (kws : List (List Char)) (text : List Char)
    (m : ChapterMatch) (hkw : kwWellFormed kws)
    (h : m ∈ mkMatches kws text) : candOK text m := by
  obtain ⟨r, ⟨q, ha⟩, hb⟩ := mem_mkMatches kws text m h
  obtain ⟨h1, h2, h3, h4⟩ := attemptAt_props kws text q r hkw ha
  obtain ⟨hms, hidx, ht⟩ := buildCandidate_some text r m hb
  have hslen : r.idx + (sliceStr r.idx r.stop text).length = r.stop := by
    rw [sliceStr_length r.idx r.stop text h3]
    omega
  refine ⟨by rw [hms]; exact h4, ?_, ?_, ?_⟩
  · cases hnl : firstNLFrom text (rawMS text r) with
    | some j =>
      obtain ⟨hj1, hj2⟩ := firstNLFrom_some text _ j hnl
      rw [hnl] at hidx
      dsimp only at hidx
      rw [hms, hidx]
      exact Nat.le_trans hj1 (Nat.le_succ j)
    | none =>
      rw [hnl] at hidx
      dsimp only at hidx
      rw [hms, hidx, hslen]
      exact h2
  · cases hnl : firstNLFrom text (rawMS text r) with
    | some j =>
      obtain ⟨hj1, hj2⟩ := firstNLFrom_some text _ j hnl
      have hjlt := get?_lt_length text j _ hj2
      rw [hnl] at hidx
      dsimp only at hidx
      rw [hidx]
      exact hjlt
    | none =>
      rw [hnl] at hidx
      dsimp only at hidx
      rw [hidx, hslen]
      exact h3
  · intro j hj
    rw [hms] at hj
    rw [hj] at hidx
    dsimp only at hidx
    exact hidx

/-! ## Deduplication and sorting: membership, keys, order -/

theorem mem_mapReplaceOrAppend (acc : List ChapterMatch) (m x : ChapterMatch)
    (h : x ∈ mapReplaceOrAppend acc m) : x ∈ acc ∨ x = m := by
  unfold mapReplaceOrAppend at h
  split at h
  · obtain ⟨y, hy, hyx⟩ := List.mem_map.mp h
    by_cases hk : y.matchStart == m.matchStart
    · rw [if_pos hk] at hyx
      exact Or.inr hyx.symm
    · rw [if_neg hk] at hyx
      exact Or.inl (hyx ▸ hy)
  · rcases List.mem_append.mp h with h1 | h2
    · exact Or.inl h1
    · exact Or.inr (List.mem_singleton.mp h2)

theorem mem_foldl_mapReplaceOrAppend :
    ∀ (l acc : List ChapterMatch) (x : ChapterMatch),
      x ∈ l.foldl mapReplaceOrAppend acc → x ∈ acc ∨ x ∈ l := by
  intro l
  induction l with
  | nil => intro acc x h; exact Or.inl h
  | cons m rest ih =>
    intro acc x h
    rcases ih (mapReplaceOrAppend acc m) x h with h1 | h2
    · rcases mem_mapReplaceOrAppend acc m x h1 with h3 | h4
      · exact Or.inl h3
      · exact Or.inr (h4 ▸ List.mem_cons_self m rest)
    · exact Or.inr (List.mem_cons_of_mem m h2)

theorem mem_dedupByMatchStart (l : List ChapterMatch) (x : ChapterMatch)
    (h : x ∈ dedupByMatchStart l) : x ∈ l := by
  rcases mem_foldl_mapReplaceOrAppend l [] x h with h1 | h2
  · simp at h1
  · exact h2

theorem keys_mapReplaceOrAppend_nodup (acc : List ChapterMatch) (m : ChapterMatch)
    (h : (acc.map (fun x => x.matchStart)).Nodup) :
    ((mapReplaceOrAppend acc m).map (fun x => x.matchStart)).Nodup := by
  unfold mapReplaceOrAppend
  split
  · rename_i hany
    have hkeys : ((acc.map (fun x =>
        if x.matchStart == m.matchStart then m else x)).map (fun x => x.matchStart)) =
        acc.map (fun x => x.matchStart) := by
      rw [List.map_map]
      apply List.map_congr_left
      intro x _
      simp only [Function.comp]
      by_cases hk : x.matchStart == m.matchStart
      · rw [if_pos hk]
        exact (beq_iff_eq.mp hk).symm
      · rw [if_neg hk]
    rw [hkeys]
    exact h
  · rename_i hany
    rw [List.map_append]
    rw [List.nodup_append]
    refine ⟨h, List.nodup_singleton _, ?_⟩
    intro a ha hb
    simp only [List.map_cons, List.map_nil, List.mem_singleton] at hb
    subst hb
    obtain ⟨x, hx, hxa⟩ := List.mem_map.mp ha
    apply hany
    rw [List.any_eq_true]
    exact ⟨x, hx, by simp [hxa]⟩

theorem nodup_keys_foldl :
    ∀ (l acc : List ChapterMatch),
      (acc.map (fun x => x.matchStart)).Nodup →
      ((l.foldl mapReplaceOrAppend acc).map (fun x => x.matchStart)).Nodup := by
  intro l
  induction l with
  | nil => intro acc h; exact h
  | cons m rest ih =>
    intro acc h
    exact ih (mapReplaceOrAppend acc m) (keys_mapReplaceOrAppend_nodup acc m h)

theorem nodup_keys_dedupByMatchStart (l : List ChapterMatch) :
    ((dedupByMatchStart l).map (fun x => x.matchStart)).Nodup :=
  nodup_keys_foldl l [] (by simp)

theorem insertByStart_perm (m : ChapterMatch) :
    ∀ (l : List ChapterMatch), List.Perm (insertByStart m l) (m :: l) := by
  intro l
  induction l with
  | nil => exact List.Perm.refl _
  | cons x xs ih =>
    unfold insertByStart
    split
    · exact List.Perm.trans (List.Perm.cons x ih) (List.Perm.swap m x xs)
    · exact List.Perm.refl _

theorem sortByStart_perm (l : List ChapterMatch) :
    List.Perm (sortByStart l) l := by
  induction l with
  | nil => exact List.Perm.refl _
  | cons x xs ih =>
    exact List.Perm.trans (insertByStart_perm x (sortByStart xs)) (ih.cons x)

theorem mem_sortByStart (l : List ChapterMatch) (x : ChapterMatch)
    (h : x ∈ sortByStart l) : x ∈ l :=
  (sortByStart_perm l).mem_iff.mp h

theorem pairwise_insertByStart (m : ChapterMatch) :
    ∀ (l : List ChapterMatch),
      l.Pairwise (fun a b => a.matchStart ≤ b.matchStart) →
      (insertByStart m l).Pairwise (fun a b => a.matchStart ≤ b.matchStart) := by
  intro l
  induction l with
  | nil => intro _; exact List.pairwise_singleton _ m
  | cons x xs ih =>
    intro h
    rw [List.pairwise_cons] at h
    unfold insertByStart
    split
    · rename_i hle
      rw [List.pairwise_cons]
      constructor
      · intro y hy
        rcases List.mem_cons.mp ((insertByStart_perm m xs).mem_iff.mp hy) with h1 | h2
        · exact h1 ▸ hle
        · exact h.1 y h2
      · exact ih h.2
    · rename_i hgt
      rw [List.pairwise_cons]
      constructor
      · intro y hy
        rcases List.mem_cons.mp hy with h1 | h2
        · subst h1; omega
        · exact Nat.le_trans (by omega) (h.1 y h2)
      · rw [List.pairwise_cons]
        exact ⟨h.1, h.2⟩

theorem pairwise_sortByStart (l : List ChapterMatch) :
    (sortByStart l).Pairwise (fun a b => a.matchStart ≤ b.matchStart) := by
  induction l with
  | nil => exact List.Pairwise.nil
  | cons x xs ih => exact pairwise_insertByStart x (sortByStart xs) ih

theorem mem_uniqueMatches (kws : List (List Char)) (text : List Char)
    (x : ChapterMatch) (h : x ∈ uniqueMatches kws text) :
    x ∈ mkMatches kws text :=
  mem_dedupByMatchStart _ x (mem_sortByStart _ x h)

theorem pairwise_lt_uniqueMatches (kws : List (List Char)) (text : List Char) :
    (uniqueMatches kws text).Pairwise (fun a b => a.matchStart < b.matchStart) := by
  have h1 := pairwise_sortByStart (dedupByMatchStart (mkMatches kws text))
  have h2 : ((sortByStart (dedupByMatchStart (mkMatches kws text))).map
      (fun x => x.matchStart)).Nodup := by
    refine ((sortByStart_perm _).map (fun x => x.matchStart)).nodup_iff.mpr ?_
    exact nodup_keys_dedupByMatchStart _
  have h3 : (sortByStart (dedupByMatchStart (mkMatches kws text))).Pairwise
      (fun a b => a.matchStart ≠ b.matchStart) := by
    rw [← List.pairwise_map]
    exact h2
  unfold uniqueMatches
  exact (h1.and h3).imp (fun hab => Nat.lt_of_le_of_ne hab.1 hab.2)

/-! ## Ordered non-overlapping decomposition of the chapter list -/

theorem index_le_next (text : List Char) (m m2 : ChapterMatch)
    (hm : candOK text m) (hm2 : candOK text m2)
    (hlt : m.matchStart < m2.matchStart) : m.index ≤ m2.matchStart := by
  obtain ⟨hd2, _, _, _⟩ := hm2
  obtain ⟨_, _, _, hfn⟩ := hm
  rcases hd2 with h0 | hnl2
  · omega
  · have hge : m.matchStart ≤ m2.matchStart - 1 := by omega
    obtain ⟨j, hj, hfj⟩ := firstNLFrom_min text m.matchStart (m2.matchStart - 1) hnl2 hge
    have := hfn j hfj
    omega

theorem sliceStr_full (text : List Char) : sliceStr 0 text.length text = text := by
  simp [sliceStr]

theorem jsSubstring_of_le (s e : ℕ) (text : List Char) (h : s ≤ e) :
    jsSubstring s e text = sliceStr s e text := by
  unfold jsSubstring
  rw [if_pos h]

theorem loopIvs_spec (text : List Char) :
    ∀ (u : List ChapterMatch), (∀ m ∈ u, candOK text m) →
      u.Pairwise (fun a b => a.matchStart < b.matchStart) →
      (loopIvs text u).length = (chapterLoop text u).length ∧
      (∀ iv ∈ loopIvs text u, iv.1 ≤ iv.2 ∧ iv.2 ≤ text.length) ∧
      List.Chain' (fun p q => p.2 ≤ q.1) (loopIvs text u) ∧
      (∀ pr ∈ (chapterLoop text u).zip (loopIvs text u),
        pr.1.content = jsTrim (sliceStr pr.2.1 pr.2.2 text)) ∧
      (∀ iv0, (loopIvs text u).head? = some iv0 → ∀ m0, u.head? = some m0 →
        iv0.1 = m0.index) := by
  intro u
  induction u with
  | nil =>
    intro _ _
    refine ⟨rfl, by simp [loopIvs], by simp [loopIvs], by simp [loopIvs, chapterLoop], ?_⟩
    intro iv0 h0
    simp [loopIvs] at h0
  | cons m rest ih =>
    intro hOK hPW
    cases rest with
    | nil =>
      obtain ⟨_, hmi2, hmi3, _⟩ := hOK m (List.mem_cons_self m [])
      refine ⟨rfl, ?_, ?_, ?_, ?_⟩
      · intro iv hiv
        simp only [loopIvs, List.mem_singleton] at hiv
        subst hiv
        exact ⟨hmi3, le_refl _⟩
      · simp [loopIvs]
      · intro pr hpr
        simp only [loopIvs, chapterLoop, List.zip_cons_cons, List.zip_nil_right,
          List.mem_singleton] at hpr
        subst hpr
        rw [jsSubstring_of_le m.index text.length text hmi3]
      · intro iv0 h0 m0 hm0
        simp only [loopIvs, List.head?_cons] at h0 hm0
        cases Option.some.inj h0
        cases Option.some.inj hm0
        rfl
    | cons m2 rest2 =>
      have hOK2 : ∀ x ∈ m2 :: rest2, candOK text x :=
        fun x hx => hOK x (List.mem_cons_of_mem m hx)
      have hPW2 : (m2 :: rest2).Pairwise (fun a b => a.matchStart < b.matchStart) :=
        (List.pairwise_cons.mp hPW).2
      obtain ⟨ih1, ih2, ih3, ih4, ih5⟩ := ih hOK2 hPW2
      have hmOK := hOK m (List.mem_cons_self m _)
      have hm2OK := hOK2 m2 (List.mem_cons_self m2 _)
      have hlt : m.matchStart < m2.matchStart :=
        (List.pairwise_cons.mp hPW).1 m2 (List.mem_cons_self m2 _)
      have hnext : m.index ≤ m2.matchStart := index_le_next text m m2 hmOK hm2OK hlt
      have hm2b : m2.matchStart ≤ text.length := by
        obtain ⟨_, h1, h2, _⟩ := hm2OK
        omega
      refine ⟨?_, ?_, ?_, ?_, ?_⟩
      · simp only [loopIvs, chapterLoop, List.length_cons]
        omega
      · intro iv hiv
        rcases List.mem_cons.mp hiv with h1 | h2
        · subst h1
          exact ⟨hnext, hm2b⟩
        · exact ih2 iv h2
      · rw [show loopIvs text (m :: m2 :: rest2) =
          (m.index, m2.matchStart) :: loopIvs text (m2 :: rest2) from rfl]
        rw [List.chain'_cons']
        constructor
        · intro b hb
          have := ih5 b hb m2 (List.head?_cons)
          obtain ⟨_, hms2, _, _⟩ := hm2OK
          simp only
          omega
        · exact ih3
      · intro pr hpr
        rw [show (chapterLoop text (m :: m2 :: rest2)).zip (loopIvs text (m :: m2 :: rest2)) =
          (⟨m.title, jsTrim (jsSubstring m.index m2.matchStart text)⟩,
            (m.index, m2.matchStart)) ::
            (chapterLoop text (m2 :: rest2)).zip (loopIvs text (m2 :: rest2)) from rfl] at hpr
        rcases List.mem_cons.mp hpr with h1 | h2
        · subst h1
          simp only
          rw [jsSubstring_of_le m.index m2.matchStart text hnext]
        · exact ih4 pr h2
      · intro iv0 h0 m0 hm0
        rw [show (loopIvs text (m :: m2 :: rest2)).head? =
          some (m.index, m2.matchStart) from rfl] at h0
        rw [List.head?_cons] at hm0
        cases Option.some.inj h0
        cases Option.some.inj hm0
        rfl

/-- C1 amended.  The chapters the splitter emits are (possibly trimmed)
slices of pairwise non-overlapping, positionally increasing intervals of
the input text — the "no overlaps" half of the partition property.  The
"no gaps" half fails: heading lines and trimmed whitespace are dropped
(see the counterexample). -/
theorem C1_contents_ordered_nonoverlapping (text : List Char) :
    isOrderedSliceListing text (splitIntoChapters text) := by
  unfold splitIntoChapters buildChapters
  by_cases hempty : (mkMatches kwAll text).isEmpty
  · rw [if_pos hempty]
    refine ⟨[(0, text.length)], rfl, ?_, ?_, ?_⟩
    · intro iv hiv
      rw [List.mem_singleton] at hiv
      subst hiv
      exact ⟨Nat.zero_le _, le_refl _⟩
    · simp
    · intro p hp
      simp only [List.zip_cons_cons, List.zip_nil_right, List.mem_singleton] at hp
      subst hp
      exact Or.inr (sliceStr_full text).symm
  · rw [if_neg hempty]
    have hkw : kwWellFormed kwAll := by
      unfold kwWellFormed
      decide
    have hOK : ∀ m ∈ uniqueMatches kwAll text, candOK text m :=
      fun m hm => candOK_of_mem kwAll text m hkw (mem_uniqueMatches kwAll text m hm)
    have hPW := pairwise_lt_uniqueMatches kwAll text
    obtain ⟨hlen, hbounds, hchain, hcontent, hhead⟩ :=
      loopIvs_spec text (uniqueMatches kwAll text) hOK hPW
    rw [show sortByStart (dedupByMatchStart (mkMatches kwAll text)) =
      uniqueMatches kwAll text from rfl]
    cases hu : uniqueMatches kwAll text with
    | nil =>
      rw [uniqueMatches_eq_nil_iff] at hu
      exact absurd hu (fun hc => hempty (by simp [hc]))
    | cons m0 us =>
      rw [hu] at hlen hbounds hchain hcontent hhead hOK
      have hm0OK := hOK m0 (List.mem_cons_self m0 us)
      obtain ⟨_, hms1, hms2, _⟩ := hm0OK
      dsimp only
      by_cases hpre : 0 < m0.matchStart ∧ jsTrim (jsSubstring 0 m0.matchStart text) ≠ []
      · rw [if_pos hpre]
        refine ⟨(0, m0.matchStart) :: loopIvs text (m0 :: us), ?_, ?_, ?_, ?_⟩
        · simp only [List.length_cons, List.singleton_append]
          omega
        · intro iv hiv
          rcases List.mem_cons.mp hiv with h1 | h2
          · subst h1
            exact ⟨Nat.zero_le _, by omega⟩
          · exact hbounds iv h2
        · rw [List.chain'_cons']
          constructor
          · intro b hb
            have := hhead b hb m0 List.head?_cons
            simp only
            omega
          · exact hchain
        · intro p hp
          rw [List.singleton_append, List.zip_cons_cons] at hp
          rcases List.mem_cons.mp hp with h1 | h2
          · subst h1
            refine Or.inl ?_
            simp only
            rw [jsSubstring_of_le 0 m0.matchStart text (Nat.zero_le _)]
          · exact Or.inl (hcontent p h2)
      · rw [if_neg hpre]
        refine ⟨loopIvs text (m0 :: us), by simpa using hlen, hbounds, hchain, ?_⟩
        intro p hp
        rw [List.nil_append] at hp
        exact Or.inl (hcontent p hp)

/-- C1 counterexample.  On `"Chương 1\nabc"` the single chapter's content
is `"abc"`: the heading line is dropped, so concatenating the chapter
contents in order does not reproduce the source text. -/
theorem C1_concatenation_counterexample :
    ((splitIntoChapters exC1).map Chapter.content).flatten ≠ exC1 := by decide

/-! ## C3: prologue emission and chapter slicing -/

theorem chapterLoop_eq_zipWith (text : List Char) :
    ∀ (u : List ChapterMatch), chapterLoop text u =
      List.zipWith (fun m e => Chapter.mk m.title (jsTrim (jsSubstring m.index e text)))
        u (nextBounds text u) := by
  intro u
  induction u with
  | nil => rfl
  | cons m rest ih =>
    cases rest with
    | nil => rfl
    | cons m2 rest2 =>
      rw [show chapterLoop text (m :: m2 :: rest2) =
        Chapter.mk m.title (jsTrim (jsSubstring m.index m2.matchStart text)) ::
          chapterLoop text (m2 :: rest2) from rfl, ih]
      rfl

/-- C3 amended.  When at least one candidate is accepted, the splitter
emits a leading `'Mở đầu'` ("Foreword") draft exactly when the heading of
the first candidate does not start the text and the text before it is not
whitespace only, with the prefix text trimmed as the draft's content; and
each candidate yields one chapter whose content is
`text[contentStart_i, matchStart_of_next)` trimmed, the last candidate
running to the end of the text. -/
theorem C3_prologue_and_chapter_slicing (text : List Char) (m0 : ChapterMatch)
    (rest : List ChapterMatch) (h : uniqueMatches kwAll text = m0 :: rest) :
    splitIntoChapters text =
      (if 0 < m0.matchStart ∧ jsTrim (jsSubstring 0 m0.matchStart text) ≠ [] then
        [⟨titlePrologue, jsTrim (jsSubstring 0 m0.matchStart text)⟩] else []) ++
      List.zipWith (fun m e => Chapter.mk m.title (jsTrim (jsSubstring m.index e text)))
        (m0 :: rest) (nextBounds text (m0 :: rest)) := by
  have hne : ¬ (mkMatches kwAll text).isEmpty = true := by
    intro hc
    have h2 : uniqueMatches kwAll text = [] :=
      (uniqueMatches_eq_nil_iff kwAll text).mpr (List.isEmpty_iff.mp hc)
    rw [h] at h2
    exact List.noConfusion h2
  unfold splitIntoChapters buildChapters
  rw [if_neg hne]
  rw [show sortByStart (dedupByMatchStart (mkMatches kwAll text)) =
    uniqueMatches kwAll text from rfl, h]
  dsimp only
  rw [chapterLoop_eq_zipWith]

/-- C3 counterexample.  On `"\nChương 1\nbody"` the first accepted
candidate has `matchStart = 1 > 0`, yet no leading `'Mở đầu'` draft is
emitted (the prefix trims to nothing) and the content before the heading
is not `text[0, matchStart)`: the claim fails as stated. -/
theorem C3_whitespace_only_prefix_counterexample :
    ((uniqueMatches kwAll exC3).map (fun m => m.matchStart)).head? = some 1 ∧
    splitIntoChapters exC3 = [⟨"Chương 1: body".toList, "body".toList⟩] ∧
    titlePrologue ∉ (splitIntoChapters exC3).map Chapter.title := by
  exact ⟨by decide, by decide, by decide⟩

theorem C3_prologue_witness :
    uniqueMatches kwAll exC3wit =
      [⟨25, 16, ("Chương 1: body text".toList)⟩] ∧
    splitIntoChapters exC3wit =
      [⟨titlePrologue, ("intro text here".toList)⟩,
       ⟨("Chương 1: body text".toList), ("body text".toList)⟩] := by
  constructor
  · decide
  · rw [C3_prologue_and_chapter_slicing exC3wit
      ⟨25, 16, ("Chương 1: body text".toList)⟩ [] (by decide)]
    decide

/-! ## C10: trimmed titles and contents -/

theorem dropWhile_head_not (p : Char → Bool) (l : List Char) (c : Char)
    (hc : (l.dropWhile p).head? = some c) : p c = false := by
  have h := List.head?_dropWhile_not p l
  rw [hc] at h
  exact h

theorem getLast?_dropWhile_of_some (p : Char → Bool) (l : List Char) (c : Char)
    (hc : (l.dropWhile p).getLast? = some c) : l.getLast? = some c := by
  obtain ⟨w, hw⟩ := List.dropWhile_suffix p (l := l)
  rw [← hw, List.getLast?_append, hc]
  rfl

theorem jsTrim_head_not_ws (l : List Char) (c : Char)
    (hc : (jsTrim l).head? = some c) : isJsWS c = false := by
  unfold jsTrim at hc
  rw [List.head?_reverse] at hc
  have h2 := getLast?_dropWhile_of_some isJsWS (l.dropWhile isJsWS).reverse c hc
  rw [List.getLast?_reverse] at h2
  exact dropWhile_head_not isJsWS l c h2

theorem jsTrim_getLast_not_ws (l : List Char) (c : Char)
    (hc : (jsTrim l).getLast? = some c) : isJsWS c = false := by
  unfold jsTrim at hc
  rw [List.getLast?_reverse] at hc
  exact dropWhile_head_not isJsWS (l.dropWhile isJsWS).reverse c hc

theorem jsTrim_idem (l : List Char) : jsTrim (jsTrim l) = jsTrim l := by
  have h1 : (jsTrim l).dropWhile isJsWS = jsTrim l :=
    dropWhile_eq_self_of_head isJsWS (jsTrim l) (jsTrim_head_not_ws l)
  have h2 : (jsTrim l).reverse.dropWhile isJsWS = (jsTrim l).reverse := by
    apply dropWhile_eq_self_of_head
    intro c hc
    rw [List.head?_reverse] at hc
    exact jsTrim_getLast_not_ws l c hc
  show (((jsTrim l).dropWhile isJsWS).reverse.dropWhile isJsWS).reverse = jsTrim l
  rw [h1, h2, List.reverse_reverse]

theorem mem_chapterLoop (text : List Char) :
    ∀ (u : List ChapterMatch) (c : Chapter), c ∈ chapterLoop text u →
      ∃ m ∈ u, ∃ e, c = ⟨m.title, jsTrim (jsSubstring m.index e text)⟩ := by
  intro u
  induction u with
  | nil => intro c hc; simp [chapterLoop] at hc
  | cons m rest ih =>
    cases rest with
    | nil =>
      intro c hc
      rw [show chapterLoop text [m] =
        [⟨m.title, jsTrim (jsSubstring m.index text.length text)⟩] from rfl,
        List.mem_singleton] at hc
      exact ⟨m, List.mem_cons_self m [], text.length, hc⟩
    | cons m2 rest2 =>
      intro c hc
      rw [show chapterLoop text (m :: m2 :: rest2) =
        ⟨m.title, jsTrim (jsSubstring m.index m2.matchStart text)⟩ ::
          chapterLoop text (m2 :: rest2) from rfl] at hc
      rcases List.mem_cons.mp hc with h1 | h2
      · exact ⟨m, List.mem_cons_self m _, m2.matchStart, h1⟩
      · obtain ⟨m3, hm3, e, he⟩ := ih c h2
        exact ⟨m3, List.mem_cons_of_mem m hm3, e, he⟩

theorem chapterLoop_length (text : List Char) :
    ∀ (u : List ChapterMatch), (chapterLoop text u).length = u.length := by
  intro u
  induction u with
  | nil => rfl
  | cons m rest ih =>
    cases rest with
    | nil => rfl
    | cons m2 rest2 =>
      rw [show chapterLoop text (m :: m2 :: rest2) =
        ⟨m.title, jsTrim (jsSubstring m.index m2.matchStart text)⟩ ::
          chapterLoop text (m2 :: rest2) from rfl]
      simp only [List.length_cons] at ih ⊢
      omega

theorem title_trimmed_of_mem_mkMatches (kws : List (List Char)) (text : List Char)
    (m : ChapterMatch) (h : m ∈ mkMatches kws text) : jsTrim m.title = m.title := by
  obtain ⟨r, _, hb⟩ := mem_mkMatches kws text m h
  obtain ⟨_, _, t, ht⟩ := buildCandidate_some text r m hb
  rw [ht, jsTrim_idem]

/-- C10 amended.  When at least one candidate is accepted, every chapter
the splitter emits — the `'Mở đầu'` prologue included — has a title and a
content with no leading or trailing whitespace, and a whitespace-only
prefix before the first heading produces no prologue draft at all (the
chapter count equals the candidate count).  The zero-candidate fallback
chapter, by contrast, carries the untouched text (see the
counterexample). -/
theorem C10_trimmed_chapters (text : List Char) (h : mkMatches kwAll text ≠ []) :
    (∀ c ∈ splitIntoChapters text,
      jsTrim c.title = c.title ∧ jsTrim c.content = c.content) ∧
    (∀ m0 rest, uniqueMatches kwAll text = m0 :: rest →
      jsTrim (jsSubstring 0 m0.matchStart text) = [] →
      (splitIntoChapters text).length = (m0 :: rest).length) := by
  constructor
  · intro c hc
    unfold splitIntoChapters buildChapters at hc
    rw [if_neg (by simpa using h)] at hc
    rw [show sortByStart (dedupByMatchStart (mkMatches kwAll text)) =
      uniqueMatches kwAll text from rfl] at hc
    rcases List.mem_append.mp hc with h1 | h2
    · cases hu : uniqueMatches kwAll text with
      | nil => rw [hu] at h1; simp at h1
      | cons m0 us =>
        rw [hu] at h1
        dsimp only at h1
        by_cases hpre : 0 < m0.matchStart ∧ jsTrim (jsSubstring 0 m0.matchStart text) ≠ []
        · rw [if_pos hpre, List.mem_singleton] at h1
          subst h1
          refine ⟨?_, jsTrim_idem _⟩
          show jsTrim titlePrologue = titlePrologue
          decide
        · rw [if_neg hpre] at h1
          simp at h1
    · obtain ⟨m, hm, e, he⟩ := mem_chapterLoop text (uniqueMatches kwAll text) c h2
      subst he
      exact ⟨title_trimmed_of_mem_mkMatches kwAll text m
        (mem_uniqueMatches kwAll text m hm), jsTrim_idem _⟩
  · intro m0 rest hu hpre
    unfold splitIntoChapters buildChapters
    rw [if_neg (by simpa using h)]
    rw [show sortByStart (dedupByMatchStart (mkMatches kwAll text)) =
      uniqueMatches kwAll text from rfl, hu]
    dsimp only
    rw [if_neg (by intro hco; exact hco.2 hpre)]
    rw [List.nil_append, chapterLoop_length]

/-- C10 counterexample.  The zero-candidate fallback chapter wraps the
text untouched, so a whitespace-padded keyword-free input yields a
chapter whose content has leading and trailing whitespace. -/
theorem C10_fallback_untrimmed_counterexample :
    splitIntoChapters exC10 = [⟨titleFallback, exC10⟩] ∧
    jsTrim exC10 ≠ exC10 := by
  exact ⟨by decide, by decide⟩

theorem C10_trimmed_chapters_witness :
    mkMatches kwAll exC10wit ≠ [] ∧
    (∀ c ∈ splitIntoChapters exC10wit,
      jsTrim c.title = c.title ∧ jsTrim c.content = c.content) :=
  ⟨by decide, (C10_trimmed_chapters exC10wit (by decide)).1⟩

/-! ## C7: no triple newlines survive the htmlToText cleanup -/

/-! ## nlCount basics -/

theorem nlCount_nil : nlCount ([] : List Char) = 0 := rfl

theorem nlCount_cons (c : Char) (l : List Char) :
    nlCount (c :: l) = nlCount l + (if c = '\n' then 1 else 0) := by
  unfold nlCount
  rw [List.countP_cons]
  by_cases h : c = '\n'
  · simp [h]
  · simp [h]

theorem nlCount_append (a b : List Char) :
    nlCount (a ++ b) = nlCount a + nlCount b := by
  unfold nlCount
  rw [List.countP_append]

theorem nlCount_eq_zero {l : List Char} :
    nlCount l = 0 ↔ ∀ c ∈ l, ¬ c = '\n' := by
  unfold nlCount
  rw [List.countP_eq_zero]
  constructor <;> intro h c hc <;> have h2 := h c hc <;> simpa using h2

/-! ## The drop past the last newline of a whitespace run -/

theorem lastNLLen_le (run : List Char) : lastNLLen run ≤ run.length := by
  unfold lastNLLen
  rw [← List.length_reverse run]
  exact (List.dropWhile_sublist _).length_le

theorem drop_lastNLLen (run : List Char) :
    run.drop (lastNLLen run) =
      (run.reverse.takeWhile (fun c => !(c == '\n'))).reverse := by
  set A := (run.reverse.dropWhile (fun c => !(c == '\n'))).reverse with hA
  set B := (run.reverse.takeWhile (fun c => !(c == '\n'))).reverse with hB
  have hsplit : run = A ++ B := by
    rw [hA, hB, ← List.reverse_append, List.takeWhile_append_dropWhile,
      List.reverse_reverse]
  have hlen : lastNLLen run = A.length := by
    rw [hA, List.length_reverse]
    rfl
  rw [hlen, hsplit, List.drop_left]

theorem takeWhile_ws_drop_run (rest : List Char) :
    nlCount ((rest.drop (lastNLLen (rest.takeWhile isJsWS))).takeWhile isJsWS) = 0 := by
  set run := rest.takeWhile isJsWS with hrun
  set after := rest.dropWhile isJsWS with hafterdef
  have hk : lastNLLen run ≤ run.length := lastNLLen_le _
  have hrest : rest = run ++ after := by
    rw [hrun, hafterdef, List.takeWhile_append_dropWhile]
  have hdrop : rest.drop (lastNLLen run) = run.drop (lastNLLen run) ++ after := by
    rw [hrest, List.drop_append_eq_append_drop, Nat.sub_eq_zero_of_le hk,
      List.drop_zero]
  have hws : ∀ c ∈ run.drop (lastNLLen run), isJsWS c = true := by
    intro c hc
    have h2 : c ∈ run := List.drop_subset _ _ hc
    rw [hrun] at h2
    exact List.mem_takeWhile_imp h2
  have hnn : ∀ c ∈ run.drop (lastNLLen run), ¬ c = '\n' := by
    rw [drop_lastNLLen]
    intro c hc
    rw [List.mem_reverse] at hc
    have h2 := List.mem_takeWhile_imp hc
    simpa using h2
  have hend : after.takeWhile isJsWS = [] := by
    cases hd : after with
    | nil => rfl
    | cons a t =>
      have ha : isJsWS a = false := by
        apply dropWhile_head_not isJsWS rest
        rw [← hafterdef, hd]
        rfl
      rw [List.takeWhile_cons_of_neg]
      simp [ha]
  rw [hdrop, List.takeWhile_append_of_pos hws, hend, List.append_nil,
    nlCount_eq_zero]
  exact hnn

/-! ## collapseNL equations -/

theorem collapseNL_nil : collapseNL [] = [] := by
  simp [collapseNL]

theorem collapseNL_cons (c : Char) (rest : List Char) :
    collapseNL (c :: rest) =
      if c = '\n' ∧ 3 ≤ nlCount ('\n' :: rest.takeWhile isJsWS) then
        '\n' :: '\n' :: collapseNL (rest.drop (lastNLLen (rest.takeWhile isJsWS)))
      else c :: collapseNL rest := by
  rw [collapseNL]

/-! ## Whitespace prefixes of collapseNL output -/

theorem collapseNL_ws_front :
    ∀ (n : ℕ) (l : List Char), l.length ≤ n →
      ∀ m, m <+: collapseNL l → (∀ c ∈ m, isJsWS c = true) →
        nlCount m ≤ 2 ∧ nlCount m ≤ nlCount (l.takeWhile isJsWS) := by
  intro n
  induction n with
  | zero =>
    intro l hl m hm _
    have hln : l = [] := List.length_eq_zero.mp (Nat.le_zero.mp hl)
    subst hln
    rw [collapseNL_nil] at hm
    have hme : m = [] := List.prefix_nil.mp hm
    subst hme
    simp [nlCount]
  | succ k ih =>
    intro l hl m hm hws
    cases l with
    | nil =>
      rw [collapseNL_nil] at hm
      have hme : m = [] := List.prefix_nil.mp hm
      subst hme
      simp [nlCount]
    | cons c rest =>
      simp only [List.length_cons] at hl
      rw [collapseNL_cons] at hm
      by_cases hcond : c = '\n' ∧ 3 ≤ nlCount ('\n' :: rest.takeWhile isJsWS)
      · rw [if_pos hcond] at hm
        obtain ⟨hc, hcnt⟩ := hcond
        subst hc
        have htwl : (('\n' : Char) :: rest).takeWhile isJsWS =
            '\n' :: rest.takeWhile isJsWS :=
          List.takeWhile_cons_of_pos (by decide)
        have htwe : nlCount (('\n' : Char) :: rest.takeWhile isJsWS) =
            nlCount (rest.takeWhile isJsWS) + 1 := by
          rw [nlCount_cons, if_pos rfl]
        cases m with
        | nil => simp [nlCount]
        | cons a m1 =>
          rw [List.cons_prefix_cons] at hm
          obtain ⟨ha, hm1⟩ := hm
          subst ha
          cases m1 with
          | nil =>
            have h1 : nlCount (['\n'] : List Char) = 1 := by decide
            rw [htwl]
            omega
          | cons b m2 =>
            rw [List.cons_prefix_cons] at hm1
            obtain ⟨hb, hm2⟩ := hm1
            subst hb
            have hm2ws : ∀ x ∈ m2, isJsWS x = true := by
              intro x hx
              exact hws x (by simp [hx])
            have hlen2 : (rest.drop (lastNLLen (rest.takeWhile isJsWS))).length ≤ k := by
              rw [List.length_drop]
              omega
            have htail := ih (rest.drop (lastNLLen (rest.takeWhile isJsWS))) hlen2
              m2 hm2 hm2ws
            have hzero := takeWhile_ws_drop_run rest
            have hm2z : nlCount m2 = 0 := by omega
            have hmval : nlCount (('\n' : Char) :: '\n' :: m2) = nlCount m2 + 2 := by
              rw [nlCount_cons, nlCount_cons, if_pos rfl]
            rw [htwl]
            omega
      · rw [if_neg hcond] at hm
        cases m with
        | nil => simp [nlCount]
        | cons a m1 =>
          rw [List.cons_prefix_cons] at hm
          obtain ⟨ha, hm1⟩ := hm
          subst ha
          have hcws : isJsWS a = true := hws a (by simp)
          have hm1ws : ∀ x ∈ m1, isJsWS x = true := by
            intro x hx
            exact hws x (by simp [hx])
          have hrec := ih rest (by omega) m1 hm1 hm1ws
          have htwl : (a :: rest).takeWhile isJsWS = a :: rest.takeWhile isJsWS :=
            List.takeWhile_cons_of_pos hcws
          rw [htwl]
          by_cases hcn : a = '\n'
          · subst hcn
            have hlt : nlCount (('\n' : Char) :: rest.takeWhile isJsWS) < 3 := by
              by_contra hge
              exact hcond ⟨rfl, by omega⟩
            have e1 : nlCount (('\n' : Char) :: m1) = nlCount m1 + 1 := by
              rw [nlCount_cons, if_pos rfl]
            have e2 : nlCount (('\n' : Char) :: rest.takeWhile isJsWS) =
                nlCount (rest.takeWhile isJsWS) + 1 := by
              rw [nlCount_cons, if_pos rfl]
            omega
          · have e1 : nlCount (a :: m1) = nlCount m1 := by
              rw [nlCount_cons, if_neg hcn]
              omega
            have e2 : nlCount (a :: rest.takeWhile isJsWS) =
                nlCount (rest.takeWhile isJsWS) := by
              rw [nlCount_cons, if_neg hcn]
              omega
            omega

/-! ## collapseNL output has no whitespace run with three newlines -/

theorem collapseNL_noThreeNLRun_aux :
    ∀ (n : ℕ) (l : List Char), l.length ≤ n → noThreeNLRun (collapseNL l) := by
  intro n
  induction n with
  | zero =>
    intro l hl m hm _
    have hln : l = [] := List.length_eq_zero.mp (Nat.le_zero.mp hl)
    subst hln
    rw [collapseNL_nil] at hm
    have hme : m = [] := by
      exact List.sublist_nil.mp hm.sublist
    subst hme
    simp [nlCount]
  | succ k ih =>
    intro l hl m hm hws
    cases l with
    | nil =>
      rw [collapseNL_nil] at hm
      have hme : m = [] := by
        exact List.sublist_nil.mp hm.sublist
      subst hme
      simp [nlCount]
    | cons c rest =>
      simp only [List.length_cons] at hl
      rw [collapseNL_cons] at hm
      by_cases hcond : c = '\n' ∧ 3 ≤ nlCount ('\n' :: rest.takeWhile isJsWS)
      · rw [if_pos hcond] at hm
        rw [List.infix_cons_iff] at hm
        rcases hm with hpre | hin
        · have hpl : m <+: collapseNL (c :: rest) := by
            rw [collapseNL_cons, if_pos hcond]
            exact hpre
          exact (collapseNL_ws_front (k + 1) (c :: rest)
            (by simp only [List.length_cons]; omega) m hpl hws).1
        · rw [List.infix_cons_iff] at hin
          rcases hin with hpre2 | hin2
          · cases m with
            | nil => simp [nlCount]
            | cons a m1 =>
              rw [List.cons_prefix_cons] at hpre2
              obtain ⟨ha, hm1⟩ := hpre2
              subst ha
              have hm1ws : ∀ x ∈ m1, isJsWS x = true := by
                intro x hx
                exact hws x (by simp [hx])
              have hlen2 : (rest.drop (lastNLLen (rest.takeWhile isJsWS))).length ≤ k := by
                rw [List.length_drop]
                omega
              have ht := collapseNL_ws_front k
                (rest.drop (lastNLLen (rest.takeWhile isJsWS))) hlen2 m1 hm1 hm1ws
              have hzero := takeWhile_ws_drop_run rest
              have e1 : nlCount (('\n' : Char) :: m1) = nlCount m1 + 1 := by
                rw [nlCount_cons, if_pos rfl]
              omega
          · have hlen2 : (rest.drop (lastNLLen (rest.takeWhile isJsWS))).length ≤ k := by
              rw [List.length_drop]
              omega
            exact ih (rest.drop (lastNLLen (rest.takeWhile isJsWS))) hlen2 m hin2 hws
      · rw [if_neg hcond] at hm
        rw [List.infix_cons_iff] at hm
        rcases hm with hpre | hin
        · have hpl : m <+: collapseNL (c :: rest) := by
            rw [collapseNL_cons, if_neg hcond]
            exact hpre
          exact (collapseNL_ws_front (k + 1) (c :: rest)
            (by simp only [List.length_cons]; omega) m hpl hws).1
        · exact ih rest (by omega) m hin hws

theorem collapseNL_noThreeNLRun (l : List Char) : noThreeNLRun (collapseNL l) :=
  collapseNL_noThreeNLRun_aux l.length l (le_refl _)

/-! ## splitOnNL and joinNL structure -/

theorem splitOnNL_ne_nil (l : List Char) : splitOnNL l ≠ [] := by
  cases l with
  | nil => simp [splitOnNL]
  | cons c rest =>
    simp only [splitOnNL]
    by_cases h : c = '\n'
    · rw [if_pos h]
      simp
    · rw [if_neg h]
      cases splitOnNL rest <;> simp

theorem splitOnNL_cons_nl (rest : List Char) :
    splitOnNL ('\n' :: rest) = [] :: splitOnNL rest := by
  simp [splitOnNL]

theorem splitOnNL_cons_other (c : Char) (rest : List Char) (h : ¬ c = '\n')
    (h0 : List Char) (t0 : List (List Char)) (he : splitOnNL rest = h0 :: t0) :
    splitOnNL (c :: rest) = (c :: h0) :: t0 := by
  simp only [splitOnNL, if_neg h, he]

theorem joinNL_splitOnNL (l : List Char) : joinNL (splitOnNL l) = l := by
  induction l with
  | nil => rfl
  | cons c rest ih =>
    by_cases h : c = '\n'
    · subst h
      rw [splitOnNL_cons_nl]
      obtain ⟨x, t, hxt⟩ := List.exists_cons_of_ne_nil (splitOnNL_ne_nil rest)
      rw [hxt]
      show ([] : List Char) ++ '\n' :: joinNL (x :: t) = '\n' :: rest
      rw [List.nil_append, ← hxt, ih]
    · obtain ⟨h0, t0, h0t⟩ := List.exists_cons_of_ne_nil (splitOnNL_ne_nil rest)
      rw [splitOnNL_cons_other c rest h h0 t0 h0t]
      cases t0 with
      | nil =>
        show (c :: h0 : List Char) = c :: rest
        rw [h0t] at ih
        have hh : joinNL [h0] = h0 := rfl
        rw [hh] at ih
        rw [ih]
      | cons y t1 =>
        show (c :: h0) ++ '\n' :: joinNL (y :: t1) = c :: rest
        rw [h0t] at ih
        have hh : joinNL (h0 :: y :: t1) = h0 ++ '\n' :: joinNL (y :: t1) := rfl
        rw [hh] at ih
        rw [List.cons_append, ih]

theorem splitOnNL_no_nl (l : List Char) :
    ∀ p ∈ splitOnNL l, ∀ c ∈ p, ¬ c = '\n' := by
  induction l with
  | nil =>
    intro p hp
    simp [splitOnNL] at hp
    subst hp
    simp
  | cons c rest ih =>
    intro p hp
    by_cases h : c = '\n'
    · subst h
      rw [splitOnNL_cons_nl] at hp
      rcases List.mem_cons.mp hp with h1 | h2
      · subst h1
        simp
      · exact ih p h2
    · obtain ⟨h0, t0, h0t⟩ := List.exists_cons_of_ne_nil (splitOnNL_ne_nil rest)
      rw [splitOnNL_cons_other c rest h h0 t0 h0t] at hp
      rcases List.mem_cons.mp hp with h1 | h2
      · subst h1
        intro x hx
        rcases List.mem_cons.mp hx with h3 | h4
        · subst h3
          exact h
        · exact ih h0 (by rw [h0t]; exact List.mem_cons_self _ _) x h4
      · exact ih p (by rw [h0t]; exact List.mem_cons_of_mem _ h2)

/-! ## jsTrim structure -/

theorem mem_jsTrim {c : Char} {l : List Char} (h : c ∈ jsTrim l) : c ∈ l := by
  unfold jsTrim at h
  rw [List.mem_reverse] at h
  have h2 : c ∈ (l.dropWhile isJsWS).reverse := (List.dropWhile_sublist _).subset h
  rw [List.mem_reverse] at h2
  exact (List.dropWhile_sublist _).subset h2

theorem all_ws_of_jsTrim_nil {l : List Char} (h : jsTrim l = []) :
    ∀ c ∈ l, isJsWS c = true := by
  unfold jsTrim at h
  rw [List.reverse_eq_nil_iff, List.dropWhile_eq_nil_iff] at h
  intro c hc
  have hsplit : c ∈ l.takeWhile isJsWS ++ l.dropWhile isJsWS := by
    rw [List.takeWhile_append_dropWhile]
    exact hc
  rcases List.mem_append.mp hsplit with h1 | h2
  · exact List.mem_takeWhile_imp h1
  · exact h c (List.mem_reverse.mpr h2)

theorem jsTrim_within (l : List Char) : jsTrim l <:+: l := by
  have hsuf : l.dropWhile isJsWS <:+ l := List.dropWhile_suffix isJsWS
  have hpre : jsTrim l <+: l.dropWhile isJsWS := by
    have h1 : (l.dropWhile isJsWS).reverse.dropWhile isJsWS <:+
        (l.dropWhile isJsWS).reverse := List.dropWhile_suffix isJsWS
    have h2 := List.reverse_prefix.mpr h1
    rw [List.reverse_reverse] at h2
    exact h2
  exact hpre.isInfix.trans hsuf.isInfix

/-! ## Newline prefixes and infixes of joined trimmed lines -/

theorem joinNL_single_nl_front :
    ∀ (L : List (List Char)), (∀ p ∈ L, ∀ c ∈ p, ¬ c = '\n') →
      (['\n'] : List Char) <+: joinNL L →
      ∃ t, L = [] :: t ∧ t ≠ [] := by
  intro L hn h
  match L with
  | [] =>
    rw [show joinNL [] = [] from rfl] at h
    exact absurd (List.prefix_nil.mp h) (by simp)
  | [x] =>
    rw [show joinNL [x] = x from rfl] at h
    obtain ⟨r, hr⟩ := h
    exact absurd rfl (hn x (by simp) '\n' (by rw [← hr]; simp))
  | x :: y :: t =>
    cases x with
    | nil => exact ⟨y :: t, rfl, by simp⟩
    | cons a x2 =>
      rw [show joinNL ((a :: x2) :: y :: t) = a :: joinNL (x2 :: y :: t) from rfl] at h
      rw [List.cons_prefix_cons] at h
      exact absurd h.1.symm (hn (a :: x2) (by simp) a (by simp))

theorem joinNL_double_nl_front :
    ∀ (L : List (List Char)), (∀ p ∈ L, ∀ c ∈ p, ¬ c = '\n') →
      (['\n', '\n'] : List Char) <+: joinNL L →
      ∃ t, L = [] :: [] :: t ∧ t ≠ [] := by
  intro L hn h
  match L with
  | [] =>
    rw [show joinNL [] = [] from rfl] at h
    exact absurd (List.prefix_nil.mp h) (by simp)
  | [x] =>
    rw [show joinNL [x] = x from rfl] at h
    obtain ⟨r, hr⟩ := h
    exact absurd rfl (hn x (by simp) '\n' (by rw [← hr]; simp))
  | x :: y :: t =>
    cases x with
    | cons a x2 =>
      rw [show joinNL ((a :: x2) :: y :: t) = a :: joinNL (x2 :: y :: t) from rfl] at h
      rw [List.cons_prefix_cons] at h
      exact absurd h.1.symm (hn (a :: x2) (by simp) a (by simp))
    | nil =>
      rw [show joinNL ([] :: y :: t) = '\n' :: joinNL (y :: t) from rfl] at h
      rw [List.cons_prefix_cons] at h
      obtain ⟨t2, ht2, htne⟩ := joinNL_single_nl_front (y :: t)
        (fun p hp => hn p (List.mem_cons_of_mem _ hp)) h.2
      exact ⟨t2, by rw [ht2], htne⟩

theorem joinNL_triple_infix_aux :
    ∀ (n : ℕ) (L : List (List Char)), (joinNL L).length ≤ n →
      (∀ p ∈ L, ∀ c ∈ p, ¬ c = '\n') →
      (['\n', '\n', '\n'] : List Char) <:+: joinNL L →
      ∃ A B, L = A ++ [] :: [] :: B ∧ A ≠ [] ∧ B ≠ [] := by
  intro n
  induction n with
  | zero =>
    intro L hl _ h
    have h0 : joinNL L = [] := List.length_eq_zero.mp (Nat.le_zero.mp hl)
    rw [h0] at h
    have h1 := List.sublist_nil.mp h.sublist
    simp at h1
  | succ k ih =>
    intro L hl hn h
    match L with
    | [] =>
      rw [show joinNL [] = [] from rfl] at h
      have h1 := List.sublist_nil.mp h.sublist
      simp at h1
    | [x] =>
      rw [show joinNL [x] = x from rfl] at h
      exact absurd rfl (hn x (by simp) '\n' (h.subset (by simp)))
    | [] :: y :: t =>
      rw [show joinNL ([] :: y :: t) = '\n' :: joinNL (y :: t) from rfl] at h hl
      rw [List.infix_cons_iff] at h
      have hn2 : ∀ p ∈ y :: t, ∀ c ∈ p, ¬ c = '\n' :=
        fun p hp => hn p (List.mem_cons_of_mem _ hp)
      rcases h with hpre | hin
      · rw [List.cons_prefix_cons] at hpre
        obtain ⟨t2, ht2, htne⟩ := joinNL_double_nl_front (y :: t) hn2 hpre.2
        refine ⟨[[]], t2, ?_, by simp, htne⟩
        rw [ht2]
        rfl
      · simp only [List.length_cons] at hl
        obtain ⟨A, B, hAB, hA, hB⟩ := ih (y :: t) (by omega) hn2 hin
        refine ⟨[] :: A, B, ?_, by simp, hB⟩
        rw [List.cons_append, hAB]
    | (a :: x2) :: y :: t =>
      rw [show joinNL ((a :: x2) :: y :: t) = a :: joinNL (x2 :: y :: t)
        from rfl] at h hl
      have hane : ¬ a = '\n' := hn (a :: x2) (by simp) a (by simp)
      rw [List.infix_cons_iff] at h
      rcases h with hpre | hin
      · rw [List.cons_prefix_cons] at hpre
        exact absurd hpre.1.symm hane
      · have hn2 : ∀ q ∈ x2 :: y :: t, ∀ c ∈ q, ¬ c = '\n' := by
          intro q hq c hc
          rcases List.mem_cons.mp hq with h1 | h2
          · exact hn (a :: x2) (by simp) c (List.mem_cons_of_mem _ (h1 ▸ hc))
          · exact hn q (List.mem_cons_of_mem _ h2) c hc
        simp only [List.length_cons] at hl
        obtain ⟨A, B, hAB, hA, hB⟩ := ih (x2 :: y :: t) (by omega) hn2 hin
        match A, hA with
        | A0 :: A2, _ =>
          rw [List.cons_append] at hAB
          have h1 : x2 = A0 ∧ y :: t = A2 ++ [] :: [] :: B := by
            have h2 := List.cons.injEq x2 (y :: t) A0 (A2 ++ [] :: [] :: B) ▸ hAB
            exact ⟨h2.1, h2.2⟩
          refine ⟨(a :: x2) :: A2, B, ?_, by simp, hB⟩
          rw [List.cons_append, h1.2]

/-! ## Rebuilding the whitespace run inside the source string -/

theorem map_jsTrim_eq_append_cons_cons :
    ∀ (A : List (List Char)) (S : List (List Char)) (x y : List Char)
      (B : List (List Char)),
      S.map jsTrim = A ++ x :: y :: B →
      ∃ SA sx sy SB, S = SA ++ sx :: sy :: SB ∧ SA.map jsTrim = A ∧
        jsTrim sx = x ∧ jsTrim sy = y ∧ SB.map jsTrim = B := by
  intro A
  induction A with
  | nil =>
    intro S x y B h
    cases S with
    | nil => simp at h
    | cons sx S2 =>
      cases S2 with
      | nil => simp at h
      | cons sy SB =>
        rw [List.map_cons, List.map_cons, List.nil_append] at h
        have h1 : jsTrim sx = x ∧ jsTrim sy = y ∧ SB.map jsTrim = B := by
          have h2 := List.cons.injEq (jsTrim sx) (jsTrim sy :: SB.map jsTrim)
            x (y :: B) ▸ h
          have h3 := List.cons.injEq (jsTrim sy) (SB.map jsTrim) y B ▸ h2.2
          exact ⟨h2.1, h3.1, h3.2⟩
        exact ⟨[], sx, sy, SB, rfl, rfl, h1.1, h1.2.1, h1.2.2⟩
  | cons a A2 ihA =>
    intro S x y B h
    cases S with
    | nil => simp at h
    | cons s S2 =>
      rw [List.map_cons, List.cons_append] at h
      have h1 : jsTrim s = a ∧ S2.map jsTrim = A2 ++ x :: y :: B := by
        have h2 := List.cons.injEq (jsTrim s) (S2.map jsTrim)
          a (A2 ++ x :: y :: B) ▸ h
        exact ⟨h2.1, h2.2⟩
      obtain ⟨SA, sx, sy, SB, hS, hSA, hx, hy, hSB⟩ := ihA S2 x y B h1.2
      refine ⟨s :: SA, sx, sy, SB, ?_, ?_, hx, hy, hSB⟩
      · rw [List.cons_append, hS]
      · rw [List.map_cons, hSA, h1.1]

theorem joinNL_middle_run :
    ∀ (A : List (List Char)) (s1 s2 : List Char) (B : List (List Char)),
      A ≠ [] → B ≠ [] →
      ∃ u v, joinNL (A ++ s1 :: s2 :: B) =
        u ++ ('\n' :: (s1 ++ '\n' :: (s2 ++ ['\n']))) ++ v := by
  intro A
  induction A with
  | nil =>
    intro s1 s2 B hA _
    exact absurd rfl hA
  | cons a A2 ihA =>
    intro s1 s2 B _ hB
    cases A2 with
    | nil =>
      cases B with
      | nil => exact absurd rfl hB
      | cons b B2 =>
        refine ⟨a, joinNL (b :: B2), ?_⟩
        show a ++ '\n' :: joinNL (s1 :: s2 :: b :: B2) = _
        rw [show joinNL (s1 :: s2 :: b :: B2) =
          s1 ++ '\n' :: joinNL (s2 :: b :: B2) from rfl]
        rw [show joinNL (s2 :: b :: B2) = s2 ++ '\n' :: joinNL (b :: B2) from rfl]
        simp [List.append_assoc, List.cons_append]
    | cons a2 A3 =>
      obtain ⟨u, v, huv⟩ := ihA s1 s2 B (by simp) hB
      refine ⟨a ++ '\n' :: u, v, ?_⟩
      rw [List.cons_append]
      rw [show joinNL (a :: ((a2 :: A3) ++ s1 :: s2 :: B)) =
        a ++ '\n' :: joinNL ((a2 :: A3) ++ s1 :: s2 :: B) from rfl]
      rw [huv]
      simp [List.append_assoc, List.cons_append]

/-! ## lineTrim keeps the no-three-newline-run invariant, without triples -/

theorem lineTrim_no_triple (z : List Char) (hz : noThreeNLRun z) :
    ¬ (['\n', '\n', '\n'] : List Char) <:+: lineTrim z := by
  intro h
  unfold lineTrim at h
  have hnn : ∀ p ∈ (splitOnNL z).map jsTrim, ∀ c ∈ p, ¬ c = '\n' := by
    intro p hp c hc
    obtain ⟨q, hq, hqe⟩ := List.mem_map.mp hp
    subst hqe
    exact splitOnNL_no_nl z q hq c (mem_jsTrim hc)
  obtain ⟨A, B, hAB, hA, hB⟩ := joinNL_triple_infix_aux
    (joinNL ((splitOnNL z).map jsTrim)).length _ (le_refl _) hnn h
  obtain ⟨SA, sx, sy, SB, hS, hSA, hx, hy, hSB⟩ :=
    map_jsTrim_eq_append_cons_cons A (splitOnNL z) [] [] B hAB
  have hSAne : SA ≠ [] := by
    intro e
    rw [e] at hSA
    exact hA hSA.symm
  have hSBne : SB ≠ [] := by
    intro e
    rw [e] at hSB
    exact hB hSB.symm
  obtain ⟨u, v, huv⟩ := joinNL_middle_run SA sx sy SB hSAne hSBne
  have hz2 : z = u ++ ('\n' :: (sx ++ '\n' :: (sy ++ ['\n']))) ++ v := by
    rw [← joinNL_splitOnNL z, hS, huv]
  have hinf : ('\n' :: (sx ++ '\n' :: (sy ++ ['\n']))) <:+: z := ⟨u, v, hz2.symm⟩
  have hws : ∀ c ∈ ('\n' :: (sx ++ '\n' :: (sy ++ ['\n']))), isJsWS c = true := by
    intro c hc
    rcases List.mem_cons.mp hc with h1 | hc2
    · subst h1
      decide
    rcases List.mem_append.mp hc2 with h1 | h2
    · exact all_ws_of_jsTrim_nil hx c h1
    rcases List.mem_cons.mp h2 with h3 | h4
    · subst h3
      decide
    rcases List.mem_append.mp h4 with h5 | h6
    · exact all_ws_of_jsTrim_nil hy c h5
    · have h7 : c = '\n' := by simpa using h6
      subst h7
      decide
  have hcnt : nlCount ('\n' :: (sx ++ '\n' :: (sy ++ ['\n']))) =
      nlCount sx + nlCount sy + 3 := by
    rw [nlCount_cons, nlCount_append, nlCount_cons, nlCount_append]
    have h1 : nlCount (['\n'] : List Char) = 1 := by decide
    rw [h1, if_pos rfl]
    omega
  have hle := hz _ hinf hws
  omega

/-- **C7.**  For every input string fed to the whitespace-cleanup tail of
`htmlToText`, the output contains no run of three or more consecutive
newline characters: the `\n\s*\n\s*\n` replacement collapses every
whitespace run holding three or more newlines to exactly two, line
trimming only removes whitespace around newline-free lines, and the final
trim only removes characters at the ends. -/
theorem C7_no_triple_newline (l : List Char) :
    hasTripleNL (cleanupWhitespace l) = false := by
  unfold hasTripleNL
  apply decide_eq_false
  intro h
  unfold cleanupWhitespace at h
  have h2 : (['\n', '\n', '\n'] : List Char) <:+:
      lineTrim (collapseNL (collapseHoriz l)) :=
    h.trans (jsTrim_within _)
  exact lineTrim_no_triple _ (collapseNL_noThreeNLRun _) h2

end BookTTS
